import Mathlib

set_option maxRecDepth 40000

/-!
Verification of the fuzzy quote-anchoring and annotation-layout engine of
the academicfeedback repository (src/app/page.tsx).  Strings are modelled
as `List Char`; JavaScript string indices become list positions.  All
definitions are structurally recursive so concrete runs reduce in the
kernel.
-/

namespace AF

/-- JS `\s` character class (ECMA-262 WhiteSpace ∪ LineTerminator), used by
`String.prototype.trim`, `split(/\s+/)` and `.replace(/\s+/g, ' ')`. -/
def isWsChar (c : Char) : Bool :=
  c.toNat = 9 ∨ c.toNat = 10 ∨ c.toNat = 11 ∨ c.toNat = 12 ∨ c.toNat = 13 ∨
  c.toNat = 32 ∨ c.toNat = 160 ∨ c.toNat = 0x1680 ∨
  (0x2000 ≤ c.toNat ∧ c.toNat ≤ 0x200a) ∨
  c.toNat = 0x2028 ∨ c.toNat = 0x2029 ∨ c.toNat = 0x202f ∨
  c.toNat = 0x205f ∨ c.toNat = 0x3000 ∨ c.toNat = 0xfeff

/-- `String.prototype.toLowerCase` modelled character-wise on the ASCII
range (the simple case mapping; the only letters the claims exercise). -/
def toLowerChar (c : Char) : Char :=
  if 65 ≤ c.toNat ∧ c.toNat ≤ 90 then Char.ofNat (c.toNat + 32) else c

/-- `.replace(/[‘’]/g, "'")` -/
def replQuote1 (c : Char) : Char :=
  if c = '‘' ∨ c = '’' then '\'' else c

/-- `.replace(/[“”]/g, '"')` -/
def replQuote2 (c : Char) : Char :=
  if c = '“' ∨ c = '”' then '"' else c

/-- `.replace(/–|—/g, '-')` -/
def replDash (c : Char) : Char :=
  if c = '–' ∨ c = '—' then '-' else c

/-- `.replace(/…/g, '...')` — one character becomes three. -/
def replEllipsis (c : Char) : List Char :=
  if c = '…' then ['.', '.', '.'] else [c]

/-- `.replace(/\s+/g, ' ')`: each maximal whitespace run becomes one space.
The boolean flag records whether the previous character was whitespace. -/
def collapseWsAux : Bool → List Char → List Char
  | _, [] => []
  | inWs, c :: cs =>
    if isWsChar c then
      if inWs then collapseWsAux true cs else ' ' :: collapseWsAux true cs
    else c :: collapseWsAux false cs

def collapseWs (s : List Char) : List Char := collapseWsAux false s

/-- `String.prototype.trim`: strip leading and trailing whitespace. -/
def jsTrim (s : List Char) : List Char :=
  ((s.dropWhile isWsChar).reverse.dropWhile isWsChar).reverse

/-- The character-for-character part of `normalizeText`: the lower-casing
and the four glyph replacements, chained in source order. -/
def charCanon (s : List Char) : List Char :=
  ((((s.map toLowerChar).map replQuote1).map replQuote2).map replDash).flatMap
    replEllipsis

/-- What `charCanon` does to one character. -/
def canonOne (c : Char) : List Char :=
  replEllipsis (replDash (replQuote2 (replQuote1 (toLowerChar c))))

/-- `normalizeText` (page.tsx lines 70–83): lower-case, canonicalize curly
quotes / dashes / ellipsis, collapse whitespace, trim.  The `if !text`
guard of the source returns the empty string on empty input. -/
def normalizeText (s : List Char) : List Char :=
  if s = [] then [] else jsTrim (collapseWs (charCanon s))

/-! Search primitives shared by the matching strategies. -/

/-- Scan positions left to right; the first index (counting from `i`) whose
suffix satisfies `p`.  Also tests the empty suffix, like a JS regex or
`indexOf` can match at the end of the string. -/
def findFrom (p : List Char → Bool) : List Char → Nat → Option Nat
  | s, i =>
    if p s then some i
    else
      match s with
      | [] => none
      | _ :: cs => findFrom p cs (i + 1)

/-- `haystack.indexOf(pat)` as an `Option`: the least position where `pat`
occurs as a contiguous block, `none` when absent (JS returns −1). -/
def idxOf (pat s : List Char) : Option Nat :=
  findFrom (fun t => pat.isPrefixOf t) s 0

/-- Case-insensitive character comparison, as the regex `i` flag. -/
def charCI (a b : Char) : Bool := toLowerChar a = toLowerChar b

/-- Whether `w` is a prefix of `s` up to case. -/
def isPrefixCI : List Char → List Char → Bool
  | [], _ => true
  | _ :: _, [] => false
  | a :: as, b :: bs => charCI a b && isPrefixCI as bs

/-- The regex fragment `\s+` followed by continuation `k`: consume one or
more whitespace characters, then `k` must hold on the remainder. -/
def gapThen (k : List Char → Bool) : List Char → Bool
  | [] => false
  | c :: cs => isWsChar c && (k cs || gapThen k cs)

/-- Whether the regex `w1\s+w2\s+w3` (each word a metacharacter-escaped
literal, flag `i`) matches at the head of `s`.  An escaped literal matches
exactly its own characters, so the pattern is word-gap-word-gap-word. -/
def seqMatchesHere (w1 w2 w3 : List Char) (s : List Char) : Bool :=
  isPrefixCI w1 s &&
    gapThen
      (fun s1 =>
        isPrefixCI w2 s1 &&
          gapThen (fun s2 => isPrefixCI w3 s2) (s1.drop w2.length))
      (s.drop w1.length)

/-- `haystack.match(seqRegex).index` for the three-word window pattern:
the least index where the pattern matches. -/
def seqFind (w1 w2 w3 : List Char) (s : List Char) : Option Nat :=
  findFrom (seqMatchesHere w1 w2 w3) s 0

/-- `needle.split(/\s+/)` as JS computes it: pieces between maximal
whitespace runs, including an empty piece before a leading separator and
after a trailing one.  The flag records that we are inside a separator run
whose piece has already been emitted. -/
def splitWsAux : Bool → List Char → List Char → List (List Char)
  | _, cur, [] => [cur.reverse]
  | skipping, cur, c :: cs =>
    if isWsChar c then
      if skipping then splitWsAux true cur cs
      else cur.reverse :: splitWsAux true [] cs
    else splitWsAux false (c :: cur) cs

def splitWs (s : List Char) : List (List Char) := splitWsAux false [] s

/-- The character class of `word.replace(/[.*+?^$\x7b\x7d()|[\]\\]/g, "\\$&")`. -/
def isMetaChar (c : Char) : Bool :=
  c = '.' ∨ c = '*' ∨ c = '+' ∨ c = '?' ∨ c = '^' ∨ c = '$' ∨
  c = '{' ∨ c = '}' ∨ c = '(' ∨ c = ')' ∨ c = '|' ∨ c = '[' ∨
  c = ']' ∨ c = '\\'

/-- Prefix every regex metacharacter with a backslash. -/
def escapeRe (s : List Char) : List Char :=
  s.flatMap fun c => if isMetaChar c then ['\\', c] else [c]

/-- `s.substring(a, b)`: both arguments clamped into `[0, length]`, then
swapped if out of order. -/
def jsSubstring (s : List Char) (a b : Nat) : List Char :=
  let a' := min a s.length
  let b' := min b s.length
  (s.drop (min a' b')).take (max a' b' - min a' b')

/-- The record `findBestSubstringMatch` returns (page.tsx lines 341–346). -/
structure MatchResult where
  startIndex : Nat
  endIndex : Nat
  matchedText : List Char
  similarity : ℚ
  deriving DecidableEq, Repr

/-- Chunk strategy (page.tsx lines 355–403), reached when the normalized
needle is longer than 50 characters: search the normalized haystack for
the first 30, the centred 30 and the last 30 characters of the normalized
needle, take the earliest hit (stable sort on position), back-compute an
estimated start, and cut `[est, est + needle.length + 20)` from the
original haystack with fixed similarity 0.9. -/
def chunkStrategy (needle haystack nn hn : List Char) : Option MatchResult :=
  let chunks : List (List Char) :=
    [nn.take 30, jsSubstring nn (nn.length / 2 - 15) (nn.length / 2 + 15),
      nn.drop (nn.length - 30)]
  let locations : List (List Char × Nat) :=
    chunks.filterMap fun ch => (idxOf ch hn).map fun i => (ch, i)
  match locations with
  | [] => none
  | _ :: _ =>
    let sorted := List.insertionSort (fun a b => a.2 ≤ b.2) locations
    match sorted with
    | [] => none
    | firstChunk :: _ =>
      let estimatedStartIndex : Nat :=
        if firstChunk.1 = nn.take 30 then firstChunk.2
        else if firstChunk.1 = jsSubstring nn (nn.length / 2 - 15) (nn.length / 2 + 15)
        then ((firstChunk.2 : ℤ) - (nn.length / 2 : ℕ) + 15).toNat
        else ((firstChunk.2 : ℤ) - (nn.length : ℕ) + 30).toNat
      let estimatedEndIndex := min haystack.length (estimatedStartIndex + needle.length + 20)
      some
        { startIndex := estimatedStartIndex
          endIndex := estimatedEndIndex
          matchedText := jsSubstring haystack estimatedStartIndex estimatedEndIndex
          similarity := mkRat 9 10 }

/-- One pass of the source's try/catch loops: an `Except.error` (a thrown
regex error, caught by the source's `catch` and skipped via `continue`)
and an `Except.ok none` (no match) both fall through to the next
candidate; the first `Except.ok (some r)` is returned. -/
def firstSomeE {α β : Type} (f : α → Except Unit (Option β)) : List α → Option β
  | [] => none
  | a :: as =>
    match f a with
    | .error _ => firstSomeE f as
    | .ok none => firstSomeE f as
    | .ok (some b) => some b

/-- One window of the word-sequence strategy (page.tsx lines 411–445):
the window's three words, each metacharacter-escaped, joined by `\s+`,
compiled with flag `i` and matched against the normalized haystack.  The
escaped pattern is a well-formed literal sequence, so the source's catch
branch is dead; the attempt always returns `Except.ok`. -/
def tryWindow (needle haystack hn : List Char) (w : List (List Char)) :
    Except Unit (Option MatchResult) :=
  match w with
  | [w1, w2, w3] =>
    .ok ((seqFind w1 w2 w3 hn).map fun idx =>
      { startIndex := idx - 20
        endIndex := min hn.length (idx + needle.length + 20)
        matchedText :=
          jsSubstring haystack (idx - 20) (min hn.length (idx + needle.length + 20))
        similarity := mkRat 85 100 })
  | _ => .ok none

/-- Word-sequence strategy: every consecutive window of exactly three
filtered words, first matching window wins; similarity 0.85. -/
def wordSeqStrategy (needle haystack hn : List Char) (words : List (List Char)) :
    Option MatchResult :=
  if 3 ≤ words.length then
    firstSomeE (tryWindow needle haystack hn)
      ((List.range (words.length - 2)).map fun i => (words.drop i).take 3)
  else none

/-- One word of the single-word fallback (page.tsx lines 452–476):
`indexOf` of the lower-cased and then metacharacter-escaped word in the
normalized haystack — the source escapes the word but then searches for
the escaped text literally, backslashes included.  `indexOf` cannot
throw, so the attempt always returns `Except.ok`. -/
def tryWord (needle haystack hn : List Char) (w : List Char) :
    Except Unit (Option MatchResult) :=
  .ok ((idxOf (escapeRe (w.map toLowerChar)) hn).map fun idx =>
    { startIndex := idx - 10
      endIndex := min hn.length (idx + needle.length + 10)
      matchedText :=
        jsSubstring haystack (idx - 10) (min hn.length (idx + needle.length + 10))
      similarity := mkRat 7 10 })

/-- Single-word fallback: filtered words longer than 5 characters, sorted
descending by length (stable), first hit wins; similarity 0.7. -/
def singleWordStrategy (needle haystack hn : List Char) (words : List (List Char)) :
    Option MatchResult :=
  let significantWords :=
    List.insertionSort (fun a b => b.length ≤ a.length)
      (words.filter fun w => 5 < w.length)
  match significantWords with
  | [] => none
  | _ :: _ => firstSomeE (tryWord needle haystack hn) significantWords

/-- `findBestSubstringMatch` (page.tsx lines 341–480): reject raw needles
shorter than 10 characters, then try the chunk strategy (only when the
normalized needle is longer than 50), the word-sequence strategy, and the
single-word fallback, first success winning. -/
def findBestSubstringMatch (needle haystack : List Char) : Option MatchResult :=
  if needle.length < 10 then none
  else
    let nn := normalizeText needle
    let hn := normalizeText haystack
    match (if 50 < nn.length then chunkStrategy needle haystack nn hn else none) with
    | some r => some r
    | none =>
      let words := (splitWs needle).filter fun w => 3 < w.length
      match wordSeqStrategy needle haystack hn words with
      | some r => some r
      | none => singleWordStrategy needle haystack hn words

/-! The annotation pipeline of the `useMemo` block (page.tsx lines 313–568). -/

/-- One feedback passage (interface `FeedbackPassage`): fields
`referenced_student_text_quote`, `feedback`, `quote_from_marking_guidelines`. -/
structure Passage where
  quote : List Char
  feedback : List Char
  guideline : Option (List Char)
  deriving DecidableEq, Repr

/-- Decimal digits of `n`, most significant first, via the fuel `n + 1`
(a number always has at most `n + 1` digits). -/
def natToCharsAux : Nat → Nat → List Char
  | 0, _ => []
  | fuel + 1, n =>
    if n < 10 then [Char.ofNat (48 + n)]
    else natToCharsAux fuel (n / 10) ++ [Char.ofNat (48 + n % 10)]

/-- `String(n)` for a nonnegative integer index. -/
def natToChars (n : Nat) : List Char := natToCharsAux (n + 1) n

/-- The template literal `annotation-<i>` (page.tsx line 333). -/
def matchedId (i : Nat) : List Char := ("annotation-").toList ++ natToChars i

/-- The template literal `unmatched-<i>` (page.tsx line 550). -/
def unmatchedId (i : Nat) : List Char := ("unmatched-").toList ++ natToChars i

/-- JS `Map.prototype.has` on an association-list model of `Map`. -/
def mapHas {β : Type} (m : List (List Char × β)) (k : List Char) : Bool :=
  m.any fun kv => kv.1 = k

/-- JS `Map.prototype.get`. -/
def mapGet {β : Type} (m : List (List Char × β)) (k : List Char) : Option β :=
  (m.find? fun kv => kv.1 = k).map Prod.snd

/-- JS `Map.prototype.set`: overwrite in place when the key exists
(keeping its insertion position), append otherwise. -/
def mapSet {β : Type} (m : List (List Char × β)) (k : List Char) (v : β) :
    List (List Char × β) :=
  if mapHas m k then m.map fun kv => if kv.1 = k then (k, v) else kv
  else m ++ [(k, v)]

/-- `passageMap` (page.tsx lines 326–338): quote ↦ (passage, id), the id
assigned from the passage's index in the original input order, before any
matching. -/
def buildPassageMap (ps : List Passage) : List (List Char × (Passage × List Char)) :=
  ps.enum.foldl (fun m ip => mapSet m ip.2.quote (ip.2, matchedId ip.1)) []

/-- The stored record of one successful placement (page.tsx line 522). -/
structure MatchedVal where
  passage : Passage
  id : List Char
  startIndex : Int
  deriving DecidableEq, Repr

/-- The state threaded through the placement loop: the progressively
marked working text and the `matchedPassages` map. -/
structure PlaceState where
  processedHtml : List Char
  matched : List (List Char × MatchedVal)
  deriving DecidableEq, Repr

/-- The opening `<span …>` inserted around a matched region (page.tsx
line 513); the class list depends on whether this annotation is active. -/
def spanOpen (id : List Char) (active : Option (List Char)) : List Char :=
  ("<span id=\"text-").toList ++ id ++ ("\" data-annotation-id=\"").toList ++ id ++
    ("\" class=\"annotation-highlight cursor-pointer transition-colors duration-200 ").toList ++
    (if active = some id then ("bg-yellow-200 dark:bg-yellow-700/50").toList
     else
       ("bg-blue-100/50 dark:bg-blue-900/30 hover:bg-blue-200/70 dark:hover:bg-blue-800/50").toList) ++
    (" rounded px-1\">").toList

def spanClose : List Char := ("</span>").toList

/-- One iteration of the placement loop (page.tsx lines 491–528): match
the quote against the current working text; on success with similarity at
least 0.7 wrap the matched cut in the span, re-match against the pristine
original text for a stable sort index (−1 when that second match fails),
and record the passage in `matchedPassages`. -/
def placeStep (doc : List Char) (pmap : List (List Char × (Passage × List Char)))
    (active : Option (List Char)) (st : PlaceState) (passage : Passage) : PlaceState :=
  match mapGet pmap passage.quote with
  | none => st
  | some info =>
    match findBestSubstringMatch passage.quote st.processedHtml with
    | none => st
    | some m =>
      if mkRat 7 10 ≤ m.similarity then
        let textToWrap := jsSubstring st.processedHtml m.startIndex m.endIndex
        let before := st.processedHtml.take m.startIndex
        let after := st.processedHtml.drop m.endIndex
        let highlightedText := spanOpen info.2 active ++ textToWrap ++ spanClose
        let stableStartIndex : Int :=
          match findBestSubstringMatch passage.quote doc with
          | some om => (om.startIndex : Int)
          | none => -1
        { processedHtml := before ++ highlightedText ++ after
          matched := mapSet st.matched passage.quote ⟨passage, info.2, stableStartIndex⟩ }
      else st

/-- The record `placeStep` stores for a passage whose match succeeded: it
depends only on the passage, the pristine document and `passageMap` — the
id from the map, the stable start index from the second match against the
pristine text (−1 when it fails). -/
def matchedEntry (doc : List Char) (pmap : List (List Char × (Passage × List Char)))
    (p : Passage) : List Char × MatchedVal :=
  (p.quote,
    ⟨p,
      match mapGet pmap p.quote with
      | some info => info.2
      | none => [],
      match findBestSubstringMatch p.quote doc with
      | some om => (om.startIndex : Int)
      | none => -1⟩)

/-- `sortedPassages` (page.tsx lines 488–489): descending raw quote
length, stable.  JS `Array.prototype.sort` is a stable sort and a stable
sort for a total preorder is unique, so insertion sort models it. -/
def sortedPassages (ps : List Passage) : List Passage :=
  List.insertionSort (fun a b => b.quote.length ≤ a.quote.length) ps

/-- The whole placement loop. -/
def runPlacement (doc : List Char) (ps : List Passage)
    (active : Option (List Char)) : PlaceState :=
  (sortedPassages ps).foldl (placeStep doc (buildPassageMap ps) active)
    ⟨doc, []⟩

/-- One entry of the final sidebar list; `startIndex = none` models the
JS `Infinity` sentinel of unmatched annotations. -/
structure AnnotRec where
  id : List Char
  feedback : List Char
  guideline : Option (List Char)
  quote : List Char
  startIndex : Option Int
  deriving DecidableEq, Repr

/-- The effective order of the JS comparator `(a, b) => a.startIndex -
b.startIndex` under `Array.prototype.sort` (a comparator result of `NaN`,
arising for two `Infinity` keys, is treated as 0 by the ECMAScript
`CompareArrayElements` step, i.e. as a tie). -/
def skLE : Option Int → Option Int → Bool
  | some a, some b => a ≤ b
  | some _, none => true
  | none, some _ => false
  | none, none => true

def annRecLE (a b : AnnotRec) : Prop := skLE a.startIndex b.startIndex = true

instance : DecidableRel annRecLE := fun a b => by
  unfold annRecLE; infer_instance

/-- `matchedAnnotationsData` (page.tsx lines 538–544): the values of
`matchedPassages` in insertion order. -/
def matchedAnnotationsData (st : PlaceState) : List AnnotRec :=
  st.matched.map fun kv =>
    { id := kv.2.id
      feedback := kv.2.passage.feedback
      guideline := kv.2.passage.guideline
      quote := kv.2.passage.quote
      startIndex := some kv.2.startIndex }

/-- `unmatchedAnnotationsData` (page.tsx lines 547–555): the input
passages whose quote is not in `matchedPassages`, in original order, with
ids numbered by their position in this filtered list. -/
def unmatchedAnnotationsData (ps : List Passage) (st : PlaceState) : List AnnotRec :=
  (ps.filter fun p => ¬ mapHas st.matched p.quote).enum.map fun ip =>
    { id := unmatchedId ip.1
      feedback := ip.2.feedback
      guideline := ip.2.guideline
      quote := ip.2.quote
      startIndex := none }

/-- What the `useMemo` block returns: the marked text and the sorted
annotation list. -/
structure PipelineResult where
  processedHtml : List Char
  annotationData : List AnnotRec
  deriving DecidableEq, Repr

/-- The full pipeline (page.tsx lines 313–568): early-out on empty text
or empty feedback, place annotations longest-quote-first, then merge and
stable-sort matched before unmatched by stable start index. -/
def buildAnnotations (doc : List Char) (ps : List Passage)
    (active : Option (List Char)) : PipelineResult :=
  if doc = [] ∨ ps = [] then ⟨doc, []⟩
  else
    let st := runPlacement doc ps active
    ⟨st.processedHtml,
      List.insertionSort annRecLE
        (matchedAnnotationsData st ++ unmatchedAnnotationsData ps st)⟩

/-! ### Character-level lemmas -/

theorem charOfNat_toNat_of_le (n : Nat) (h1 : 97 ≤ n) (h2 : n ≤ 122) :
    (Char.ofNat n).toNat = n := by
  unfold Char.ofNat
  have hv : n.isValidChar := Or.inl (by omega)
  simp [hv]
  unfold Char.ofNatAux Char.toNat
  rfl

theorem toLowerChar_idem (c : Char) : toLowerChar (toLowerChar c) = toLowerChar c := by
  unfold toLowerChar
  by_cases h : 65 ≤ c.toNat ∧ c.toNat ≤ 90
  · have ht : (Char.ofNat (c.toNat + 32)).toNat = c.toNat + 32 :=
      charOfNat_toNat_of_le _ (by omega) (by omega)
    have hneg : ¬ (65 ≤ (Char.ofNat (c.toNat + 32)).toNat ∧
        (Char.ofNat (c.toNat + 32)).toNat ≤ 90) := by rw [ht]; omega
    simp [h, hneg]
  · simp [h]

/-! ### C6: short quotes are rejected -/

/-- C6: for every quote whose raw length is less than 10 characters and
for every haystack, the substring matcher returns none, regardless of
haystack content. -/
theorem short_quote_returns_none (needle haystack : List Char)
    (h : needle.length < 10) : findBestSubstringMatch needle haystack = none := by
  unfold findBestSubstringMatch
  simp [h]

theorem short_quote_returns_none_witness :
    (("fox").toList).length < 10 ∧
      findBestSubstringMatch (("fox").toList) (("the fox ran far").toList) = none :=
  ⟨by decide, short_quote_returns_none (("fox").toList) (("the fox ran far").toList) (by decide)⟩

/-! ### C7: fixed confidence per strategy tier -/

theorem chunkStrategy_similarity {needle haystack nn hn : List Char} {r : MatchResult}
    (h : chunkStrategy needle haystack nn hn = some r) : r.similarity = mkRat 9 10 := by
  unfold chunkStrategy at h
  dsimp only at h
  split at h
  · exact absurd h (by simp)
  · split at h
    · exact absurd h (by simp)
    · obtain rfl := Option.some.inj h
      rfl

theorem firstSomeE_eq_some {α β : Type} {f : α → Except Unit (Option β)} {l : List α} {b : β}
    (h : firstSomeE f l = some b) : ∃ a ∈ l, f a = .ok (some b) := by
  induction l with
  | nil => simp [firstSomeE] at h
  | cons a as ih =>
    rw [firstSomeE] at h
    cases hfa : f a with
    | error e =>
      rw [hfa] at h
      obtain ⟨a', ha', hfa'⟩ := ih h
      exact ⟨a', List.mem_cons_of_mem _ ha', hfa'⟩
    | ok ob =>
      cases ob with
      | none =>
        rw [hfa] at h
        obtain ⟨a', ha', hfa'⟩ := ih h
        exact ⟨a', List.mem_cons_of_mem _ ha', hfa'⟩
      | some b' =>
        rw [hfa] at h
        simp only [Option.some.injEq] at h
        subst h
        exact ⟨a, List.mem_cons_self a as, hfa⟩

theorem tryWindow_similarity {needle haystack hn : List Char} {w : List (List Char)}
    {r : MatchResult} (h : tryWindow needle haystack hn w = .ok (some r)) :
    r.similarity = mkRat 85 100 := by
  rcases w with _ | ⟨w1, _ | ⟨w2, _ | ⟨w3, _ | ⟨w4, rest⟩⟩⟩⟩
  · simp [tryWindow] at h
  · simp [tryWindow] at h
  · simp [tryWindow] at h
  · cases hsf : seqFind w1 w2 w3 hn with
    | none => simp [tryWindow, hsf] at h
    | some idx =>
      simp only [tryWindow, hsf, Option.map_some', Except.ok.injEq,
        Option.some.injEq] at h
      subst h
      rfl
  · simp [tryWindow] at h

theorem wordSeqStrategy_similarity {needle haystack hn : List Char}
    {words : List (List Char)} {r : MatchResult}
    (h : wordSeqStrategy needle haystack hn words = some r) :
    r.similarity = mkRat 85 100 := by
  unfold wordSeqStrategy at h
  split at h
  · obtain ⟨w, _, hw⟩ := firstSomeE_eq_some h
    exact tryWindow_similarity hw
  · simp at h

theorem tryWord_similarity {needle haystack hn : List Char} {w : List Char}
    {r : MatchResult} (h : tryWord needle haystack hn w = .ok (some r)) :
    r.similarity = mkRat 7 10 := by
  unfold tryWord at h
  replace h := Except.ok.inj h
  cases hio : idxOf (escapeRe (w.map toLowerChar)) hn with
  | none => rw [hio] at h; simp at h
  | some idx =>
    rw [hio, Option.map_some'] at h
    obtain rfl := Option.some.inj h
    rfl

theorem singleWordStrategy_similarity {needle haystack hn : List Char}
    {words : List (List Char)} {r : MatchResult}
    (h : singleWordStrategy needle haystack hn words = some r) :
    r.similarity = mkRat 7 10 := by
  unfold singleWordStrategy at h
  dsimp only at h
  split at h
  · simp at h
  · obtain ⟨w, _, hw⟩ := firstSomeE_eq_some h
    exact tryWord_similarity hw

/-- C7: a returned MatchResult carries similarity exactly 0.9 when the
chunk strategy succeeded, 0.85 when the word-sequence strategy succeeded,
and 0.7 when the single-word fallback succeeded; no other confidence is
ever produced. -/
theorem confidence_tiers (needle haystack : List Char) (r : MatchResult)
    (h : findBestSubstringMatch needle haystack = some r) :
    (50 < (normalizeText needle).length ∧
      chunkStrategy needle haystack (normalizeText needle) (normalizeText haystack) = some r ∧
      r.similarity = mkRat 9 10) ∨
    (wordSeqStrategy needle haystack (normalizeText haystack)
        ((splitWs needle).filter fun w => 3 < w.length) = some r ∧
      r.similarity = mkRat 85 100) ∨
    (singleWordStrategy needle haystack (normalizeText haystack)
        ((splitWs needle).filter fun w => 3 < w.length) = some r ∧
      r.similarity = mkRat 7 10) := by
  unfold findBestSubstringMatch at h
  by_cases hlen : needle.length < 10
  · simp [hlen] at h
  · simp only [if_neg hlen] at h
    by_cases h50 : 50 < (normalizeText needle).length
    · simp only [if_pos h50] at h
      cases hc : chunkStrategy needle haystack (normalizeText needle) (normalizeText haystack) with
      | some r' =>
        rw [hc] at h
        obtain rfl := Option.some.inj h
        exact Or.inl ⟨h50, rfl, chunkStrategy_similarity hc⟩
      | none =>
        rw [hc] at h
        cases hw : wordSeqStrategy needle haystack (normalizeText haystack)
            ((splitWs needle).filter fun w => 3 < w.length) with
        | some r' =>
          rw [hw] at h
          obtain rfl := Option.some.inj h
          exact Or.inr (Or.inl ⟨rfl, wordSeqStrategy_similarity hw⟩)
        | none =>
          rw [hw] at h
          exact Or.inr (Or.inr ⟨h, singleWordStrategy_similarity h⟩)
    · simp only [if_neg h50] at h
      cases hw : wordSeqStrategy needle haystack (normalizeText haystack)
          ((splitWs needle).filter fun w => 3 < w.length) with
      | some r' =>
        rw [hw] at h
        obtain rfl := Option.some.inj h
        exact Or.inr (Or.inl ⟨rfl, wordSeqStrategy_similarity hw⟩)
      | none =>
        rw [hw] at h
        exact Or.inr (Or.inr ⟨h, singleWordStrategy_similarity h⟩)

theorem confidence_tiers_witness :
    (50 < (normalizeText (("zebra elephant").toList)).length ∧
      chunkStrategy (("zebra elephant").toList) (("the elephant walks").toList)
          (normalizeText (("zebra elephant").toList))
          (normalizeText (("the elephant walks").toList)) =
        some ⟨0, 18, ("the elephant walks").toList, mkRat 7 10⟩ ∧
      (mkRat 7 10 : ℚ) = mkRat 9 10) ∨
    (wordSeqStrategy (("zebra elephant").toList) (("the elephant walks").toList)
        (normalizeText (("the elephant walks").toList))
        ((splitWs (("zebra elephant").toList)).filter fun w => 3 < w.length) =
        some ⟨0, 18, ("the elephant walks").toList, mkRat 7 10⟩ ∧
      (mkRat 7 10 : ℚ) = mkRat 85 100) ∨
    (singleWordStrategy (("zebra elephant").toList) (("the elephant walks").toList)
        (normalizeText (("the elephant walks").toList))
        ((splitWs (("zebra elephant").toList)).filter fun w => 3 < w.length) =
        some ⟨0, 18, ("the elephant walks").toList, mkRat 7 10⟩ ∧
      (mkRat 7 10 : ℚ) = mkRat 7 10) :=
  confidence_tiers (("zebra elephant").toList) (("the elephant walks").toList)
    ⟨0, 18, ("the elephant walks").toList, mkRat 7 10⟩ (by decide)

/-! ### C8: per-attempt failures are skipped, metacharacters never abort -/

/-- C8: a failed attempt on one word-sequence window or fallback word is
skipped and the remaining candidates are still tried (first conjunct: the
loop model consumes an `Except.error` — the source's caught regex error —
and continues with the rest); a quote full of regex metacharacters still
drives the matcher to an ordinary answer: an escaped-literal match when
the text contains the quote, and a plain `none` when every strategy
fails (second and third conjuncts). -/
theorem matcher_error_skip :
    (∀ (f : List (List Char) → Except Unit (Option MatchResult)) (w : List (List Char))
        (ws : List (List (List Char))), f w = .error () →
        firstSomeE f (w :: ws) = firstSomeE f ws) ∧
    (findBestSubstringMatch (("(alpha) *beta* gamma!").toList)
        (("see (alpha) *beta* gamma! end").toList)).isSome = true ∧
    findBestSubstringMatch (("(((((*****)))))").toList)
      (("no metacharacters appear here at all").toList) = none := by
  refine ⟨?_, by decide, by decide⟩
  intro f w ws hf
  rw [firstSomeE, hf]

theorem matcher_error_skip_witness :
    firstSomeE (fun _ => (Except.error () : Except Unit (Option MatchResult)))
      [([] : List (List Char))] = none := by
  rw [matcher_error_skip.1 (fun _ => .error ()) [] [] rfl]
  rfl

/-! ### C10: the normalizer is idempotent -/

theorem charCanon_eq_flatMap (s : List Char) : charCanon s = s.flatMap canonOne := by
  unfold charCanon canonOne
  simp [List.map_map, List.flatMap_map]

theorem canonOne_fixed {c d : Char} (hd : d ∈ canonOne c) : canonOne d = [d] := by
  unfold canonOne at hd
  by_cases e1 : toLowerChar c = '‘' ∨ toLowerChar c = '’'
  · rw [show replQuote1 (toLowerChar c) = '\'' from by unfold replQuote1; rw [if_pos e1]] at hd
    rw [show replEllipsis (replDash (replQuote2 '\'')) = ['\''] from by decide] at hd
    obtain rfl := List.mem_singleton.mp hd
    decide
  · rw [show replQuote1 (toLowerChar c) = toLowerChar c from by
      unfold replQuote1; rw [if_neg e1]] at hd
    by_cases e2 : toLowerChar c = '“' ∨ toLowerChar c = '”'
    · rw [show replQuote2 (toLowerChar c) = '"' from by unfold replQuote2; rw [if_pos e2]] at hd
      rw [show replEllipsis (replDash '"') = ['"'] from by decide] at hd
      obtain rfl := List.mem_singleton.mp hd
      decide
    · rw [show replQuote2 (toLowerChar c) = toLowerChar c from by
        unfold replQuote2; rw [if_neg e2]] at hd
      by_cases e3 : toLowerChar c = '–' ∨ toLowerChar c = '—'
      · rw [show replDash (toLowerChar c) = '-' from by unfold replDash; rw [if_pos e3]] at hd
        rw [show replEllipsis '-' = ['-'] from by decide] at hd
        obtain rfl := List.mem_singleton.mp hd
        decide
      · rw [show replDash (toLowerChar c) = toLowerChar c from by
          unfold replDash; rw [if_neg e3]] at hd
        by_cases e4 : toLowerChar c = '…'
        · rw [show replEllipsis (toLowerChar c) = ['.', '.', '.'] from by
            unfold replEllipsis; rw [if_pos e4]] at hd
          have hd' : d = '.' := by simpa using hd
          subst hd'
          decide
        · rw [show replEllipsis (toLowerChar c) = [toLowerChar c] from by
            unfold replEllipsis; rw [if_neg e4]] at hd
          obtain rfl := List.mem_singleton.mp hd
          unfold canonOne
          rw [toLowerChar_idem]
          rw [show replQuote1 (toLowerChar c) = toLowerChar c from by
            unfold replQuote1; rw [if_neg e1]]
          rw [show replQuote2 (toLowerChar c) = toLowerChar c from by
            unfold replQuote2; rw [if_neg e2]]
          rw [show replDash (toLowerChar c) = toLowerChar c from by
            unfold replDash; rw [if_neg e3]]
          unfold replEllipsis
          rw [if_neg e4]

theorem flatMap_canonOne_fixed {l : List Char} (h : ∀ d ∈ l, canonOne d = [d]) :
    l.flatMap canonOne = l := by
  induction l with
  | nil => rfl
  | cons a as ih =>
    rw [List.flatMap_cons, h a (List.mem_cons_self a as),
      ih fun d hd => h d (List.mem_cons_of_mem a hd)]
    rfl

theorem collapseWsAux_mem {d : Char} : ∀ (flag : Bool) (l : List Char),
    d ∈ collapseWsAux flag l → d = ' ' ∨ d ∈ l := by
  intro flag l
  induction l generalizing flag with
  | nil => intro h; simp [collapseWsAux] at h
  | cons c cs ih =>
    intro h
    by_cases hc : isWsChar c
    · cases flag with
      | true =>
        rw [collapseWsAux, if_pos hc, if_pos rfl] at h
        rcases ih true h with h' | h'
        · exact Or.inl h'
        · exact Or.inr (List.mem_cons_of_mem c h')
      | false =>
        rw [collapseWsAux, if_pos hc, if_neg Bool.false_ne_true, List.mem_cons] at h
        rcases h with rfl | h'
        · exact Or.inl rfl
        · rcases ih true h' with h'' | h''
          · exact Or.inl h''
          · exact Or.inr (List.mem_cons_of_mem c h'')
    · rw [collapseWsAux, if_neg hc, List.mem_cons] at h
      rcases h with rfl | h'
      · exact Or.inr (List.mem_cons_self d cs)
      · rcases ih false h' with h'' | h''
        · exact Or.inl h''
        · exact Or.inr (List.mem_cons_of_mem c h'')

theorem jsTrim_mem {d : Char} {l : List Char} (h : d ∈ jsTrim l) : d ∈ l := by
  unfold jsTrim at h
  rw [List.mem_reverse] at h
  have h1 := (List.dropWhile_sublist (l := (l.dropWhile isWsChar).reverse)
    (p := isWsChar)).mem h
  rw [List.mem_reverse] at h1
  exact (List.dropWhile_sublist (l := l) (p := isWsChar)).mem h1

theorem normalizeText_char_fixed {s : List Char} : ∀ d ∈ normalizeText s, canonOne d = [d] := by
  intro d hd
  unfold normalizeText at hd
  by_cases h0 : s = []
  · rw [if_pos h0] at hd
    exact absurd hd (List.not_mem_nil d)
  · rw [if_neg h0] at hd
    have h1 := jsTrim_mem hd
    rcases collapseWsAux_mem false (charCanon s) h1 with rfl | h2
    · decide
    · rw [charCanon_eq_flatMap] at h2
      obtain ⟨c, _, hc⟩ := List.mem_flatMap.mp h2
      exact canonOne_fixed hc

/-- The adjacency relation "not two whitespace characters in a row". -/
def noWsPair (a b : Char) : Prop := ¬ (isWsChar a = true ∧ isWsChar b = true)

theorem collapseWsAux_invariants : ∀ l : List Char,
    ((∀ c ∈ collapseWsAux true l, isWsChar c → c = ' ') ∧
      List.Chain' noWsPair (collapseWsAux true l) ∧
      (∀ c, (collapseWsAux true l).head? = some c → isWsChar c = false)) ∧
    ((∀ c ∈ collapseWsAux false l, isWsChar c → c = ' ') ∧
      List.Chain' noWsPair (collapseWsAux false l)) := by
  intro l
  induction l with
  | nil => simp [collapseWsAux]
  | cons c cs ih =>
    obtain ⟨⟨ihA1, ihA2, ihA3⟩, ihB1, ihB2⟩ := ih
    by_cases hc : isWsChar c
    · refine ⟨⟨?_, ?_, ?_⟩, ?_, ?_⟩
      · rw [collapseWsAux, if_pos hc, if_pos rfl]; exact ihA1
      · rw [collapseWsAux, if_pos hc, if_pos rfl]; exact ihA2
      · rw [collapseWsAux, if_pos hc, if_pos rfl]; exact ihA3
      · rw [collapseWsAux, if_pos hc, if_neg Bool.false_ne_true]
        intro d hd hw
        rcases List.mem_cons.mp hd with rfl | hd'
        · rfl
        · exact ihA1 d hd' hw
      · rw [collapseWsAux, if_pos hc, if_neg Bool.false_ne_true]
        rw [List.chain'_cons']
        refine ⟨?_, ihA2⟩
        intro y hy
        have := ihA3 y hy
        exact fun hp => by rw [this] at hp; exact absurd hp.2 (by simp)
    · have hstep : ∀ flag : Bool, collapseWsAux flag (c :: cs) = c :: collapseWsAux false cs := by
        intro flag; rw [collapseWsAux, if_neg hc]
      refine ⟨⟨?_, ?_, ?_⟩, ?_, ?_⟩
      · rw [hstep true]
        intro d hd hw
        rcases List.mem_cons.mp hd with rfl | hd'
        · exact absurd hw hc
        · exact ihB1 d hd' hw
      · rw [hstep true, List.chain'_cons']
        refine ⟨?_, ihB2⟩
        intro y _
        exact fun hp => absurd hp.1 hc
      · rw [hstep true]
        intro d hd
        rw [List.head?_cons] at hd
        obtain rfl := Option.some.inj hd
        exact eq_false_of_ne_true hc
      · rw [hstep false]
        intro d hd hw
        rcases List.mem_cons.mp hd with rfl | hd'
        · exact absurd hw hc
        · exact ihB1 d hd' hw
      · rw [hstep false, List.chain'_cons']
        refine ⟨?_, ihB2⟩
        intro y _
        exact fun hp => absurd hp.1 hc

theorem collapseWs_id : ∀ l : List Char, (∀ c ∈ l, isWsChar c → c = ' ') →
    List.Chain' noWsPair l → collapseWsAux false l = l := by
  intro l
  induction l with
  | nil => intro _ _; rfl
  | cons c cs ih =>
    intro hmem hch
    by_cases hc : isWsChar c
    · have hsp : c = ' ' := hmem c (List.mem_cons_self c cs) hc
      rw [collapseWsAux, if_pos hc, if_neg Bool.false_ne_true, hsp]
      have hcs : collapseWsAux false cs = cs :=
        ih (fun d hd => hmem d (List.mem_cons_of_mem c hd)) hch.tail
      cases cs with
      | nil => rfl
      | cons d ds =>
        have hd : isWsChar d = false := by
          have := (List.chain'_cons'.mp hch).1 d rfl
          unfold noWsPair at this
          by_contra hcon
          exact this ⟨hc, by simpa using hcon⟩
        rw [collapseWsAux, if_neg (by simp [hd])]
        rw [collapseWsAux, if_neg (by simp [hd])] at hcs
        exact congrArg (fun x => ' ' :: d :: x) (List.cons.inj hcs).2
    · rw [collapseWsAux, if_neg hc]
      exact congrArg (c :: ·)
        (ih (fun d hd => hmem d (List.mem_cons_of_mem c hd)) hch.tail)

theorem dropWhile_head_not : ∀ (l : List Char) (c : Char),
    (l.dropWhile isWsChar).head? = some c → isWsChar c = false := by
  intro l
  induction l with
  | nil => intro c h; simp [List.dropWhile] at h
  | cons a as ih =>
    intro c h
    by_cases ha : isWsChar a
    · rw [List.dropWhile_cons, if_pos ha] at h
      exact ih c h
    · rw [List.dropWhile_cons, if_neg ha] at h
      rw [← Option.some.inj h]
      exact eq_false_of_ne_true ha

theorem dropWhile_id_of_head (l : List Char)
    (h : ∀ c, l.head? = some c → isWsChar c = false) : l.dropWhile isWsChar = l := by
  cases l with
  | nil => rfl
  | cons a as =>
    rw [List.dropWhile_cons, if_neg (by simp [h a rfl])]

theorem jsTrim_id (l : List Char)
    (h1 : ∀ c, l.head? = some c → isWsChar c = false)
    (h2 : ∀ c, l.getLast? = some c → isWsChar c = false) : jsTrim l = l := by
  unfold jsTrim
  rw [dropWhile_id_of_head l h1]
  rw [dropWhile_id_of_head l.reverse
    (fun c hc => h2 c (by rwa [List.head?_reverse] at hc))]
  exact List.reverse_reverse l

theorem jsTrim_head_not (l : List Char) :
    ∀ c, (jsTrim l).head? = some c → isWsChar c = false := by
  intro c h
  unfold jsTrim at h
  rw [List.head?_reverse] at h
  set m := (l.dropWhile isWsChar).reverse with hm
  have hs : m.dropWhile isWsChar <:+ m := List.dropWhile_suffix isWsChar
  obtain ⟨pre, hpre⟩ := hs
  have hne : m.dropWhile isWsChar ≠ [] := by
    intro hnil
    rw [hnil] at h
    simp at h
  have hgl : (m.dropWhile isWsChar).getLast? = m.getLast? := by
    conv_rhs => rw [← hpre]
    exact (List.getLast?_append_of_ne_nil pre hne).symm
  rw [hgl] at h
  rw [hm, List.getLast?_reverse] at h
  exact dropWhile_head_not l c h

theorem jsTrim_last_not (l : List Char) :
    ∀ c, (jsTrim l).getLast? = some c → isWsChar c = false := by
  intro c h
  unfold jsTrim at h
  rw [List.getLast?_reverse] at h
  exact dropWhile_head_not _ c h

theorem noWsPair_flip {a b : Char} (h : noWsPair a b) : noWsPair b a :=
  fun hp => h ⟨hp.2, hp.1⟩

theorem jsTrim_chain {l : List Char} (h : List.Chain' noWsPair l) :
    List.Chain' noWsPair (jsTrim l) := by
  unfold jsTrim
  have h1 : List.Chain' noWsPair (l.dropWhile isWsChar) :=
    h.suffix (List.dropWhile_suffix isWsChar)
  have h2 : List.Chain' noWsPair (l.dropWhile isWsChar).reverse :=
    List.chain'_reverse.mpr (h1.imp fun _ _ hab => noWsPair_flip hab)
  have h3 : List.Chain' noWsPair ((l.dropWhile isWsChar).reverse.dropWhile isWsChar) :=
    h2.suffix (List.dropWhile_suffix isWsChar)
  exact List.chain'_reverse.mpr (h3.imp fun _ _ hab => noWsPair_flip hab)

/-- C10: `normalizeText` is idempotent — a second application changes
nothing, because lower-casing, the glyph replacements, whitespace
collapsing and trimming each leave their own output fixed. -/
theorem normalizeText_idempotent (t : List Char) :
    normalizeText (normalizeText t) = normalizeText t := by
  by_cases h0 : t = []
  · subst h0; rfl
  · by_cases hr : normalizeText t = []
    · rw [hr]; rfl
    · have hcc : charCanon (normalizeText t) = normalizeText t := by
        rw [charCanon_eq_flatMap]
        exact flatMap_canonOne_fixed normalizeText_char_fixed
      have hexp : normalizeText t = jsTrim (collapseWs (charCanon t)) := by
        unfold normalizeText
        rw [if_neg h0]
      obtain ⟨⟨_, _, _⟩, hB1, hB2⟩ := collapseWsAux_invariants (charCanon t)
      have hmem : ∀ c ∈ normalizeText t, isWsChar c → c = ' ' := by
        intro c hc hw
        rw [hexp] at hc
        exact hB1 c (jsTrim_mem hc) hw
      have hch : List.Chain' noWsPair (normalizeText t) := by
        rw [hexp]
        exact jsTrim_chain hB2
      have hhead : ∀ c, (normalizeText t).head? = some c → isWsChar c = false := by
        rw [hexp]; exact jsTrim_head_not _
      have hlast : ∀ c, (normalizeText t).getLast? = some c → isWsChar c = false := by
        rw [hexp]; exact jsTrim_last_not _
      conv_lhs => rw [normalizeText]
      rw [if_neg hr, hcc]
      rw [show collapseWs (normalizeText t) = normalizeText t from
        collapseWs_id _ hmem hch]
      exact jsTrim_id _ hhead hlast

/-! ### C9: placement only inserts markup -/

theorem take_eq_take_min (s : List Char) (a : Nat) :
    s.take a = s.take (min a s.length) := by
  by_cases h : a ≤ s.length
  · rw [Nat.min_eq_left h]
  · rw [Nat.min_eq_right (le_of_not_le h), List.take_length,
      List.take_of_length_le (le_of_not_le h)]

theorem drop_eq_drop_min (s : List Char) (b : Nat) :
    s.drop b = s.drop (min b s.length) := by
  by_cases h : b ≤ s.length
  · rw [Nat.min_eq_left h]
  · rw [Nat.min_eq_right (le_of_not_le h), List.drop_length,
      List.drop_eq_nil_of_le (le_of_not_le h)]

/-- Cutting `substring(0, a)`, `substring(a, b)` and `substring(b)` and
re-assembling them around inserted markup never loses a character of `s`,
even when `a > b` or the indices exceed the length (JS `substring` clamps
and swaps). -/
theorem sublist_wrap (s o c : List Char) (a b : Nat) :
    List.Sublist s (s.take a ++ o ++ jsSubstring s a b ++ c ++ s.drop b) := by
  rw [take_eq_take_min s a, drop_eq_drop_min s b]
  unfold jsSubstring
  dsimp only
  set a' := min a s.length with ha'
  set b' := min b s.length with hb'
  have hble : b' ≤ s.length := by rw [hb']; exact Nat.min_le_right _ _
  by_cases hab : a' ≤ b'
  · rw [Nat.min_eq_left hab, Nat.max_eq_right hab]
    have hs : s = s.take a' ++ ((s.drop a').take (b' - a') ++ s.drop b') := by
      conv_lhs => rw [← List.take_append_drop a' s]
      congr 1
      conv_lhs => rw [← List.take_append_drop (b' - a') (s.drop a')]
      congr 1
      rw [List.drop_drop]
      congr 1
      omega
    conv_lhs => rw [hs]
    simp only [List.append_assoc]
    exact (List.Sublist.refl _).append ((List.nil_sublist o).append
      ((List.Sublist.refl _).append ((List.nil_sublist c).append (List.Sublist.refl _))))
  · have hba : b' ≤ a' := le_of_lt (not_le.mp hab)
    rw [Nat.min_eq_right hba, Nat.max_eq_left hba]
    set mid := (s.drop b').take (a' - b') with hmid
    have hsplit : s.take a' = s.take b' ++ mid := by
      rw [hmid]
      conv_lhs => rw [show a' = b' + (a' - b') from by omega]
      exact List.take_add s b' (a' - b')
    have hdrop : s.drop b' = mid ++ s.drop a' := by
      rw [hmid]
      conv_lhs => rw [← List.take_append_drop (a' - b') (s.drop b')]
      congr 1
      rw [List.drop_drop]
      congr 1
      omega
    conv_lhs => rw [← List.take_append_drop b' s, hdrop]
    rw [hsplit, hdrop]
    simp only [List.append_assoc]
    exact (List.Sublist.refl _).append ((List.Sublist.refl _).append
      ((List.nil_sublist o).append ((List.nil_sublist mid).append
        ((List.nil_sublist c).append ((List.nil_sublist mid).append
          (List.Sublist.refl _))))))

theorem placeStep_sublist (doc : List Char)
    (pmap : List (List Char × (Passage × List Char))) (active : Option (List Char))
    (st : PlaceState) (p : Passage) :
    List.Sublist st.processedHtml (placeStep doc pmap active st p).processedHtml := by
  unfold placeStep
  rcases hg : mapGet pmap p.quote with _ | info
  · exact List.Sublist.refl _
  · rcases hm : findBestSubstringMatch p.quote st.processedHtml with _ | m
    · exact List.Sublist.refl _
    · dsimp only
      by_cases hsim : mkRat 7 10 ≤ m.similarity
      · rw [if_pos hsim]
        dsimp only
        have h := sublist_wrap st.processedHtml (spanOpen info.2 active) spanClose
          m.startIndex m.endIndex
        simpa [List.append_assoc] using h
      · rw [if_neg hsim]

theorem foldl_place_sublist (doc : List Char)
    (pmap : List (List Char × (Passage × List Char))) (active : Option (List Char)) :
    ∀ (l : List Passage) (st : PlaceState),
      List.Sublist st.processedHtml (l.foldl (placeStep doc pmap active) st).processedHtml := by
  intro l
  induction l with
  | nil => intro st; exact List.Sublist.refl _
  | cons p rest ih =>
    intro st
    exact (placeStep_sublist doc pmap active st p).trans
      (ih (placeStep doc pmap active st p))

/-- C9: placement is insertion-only — the original document text occurs
as a subsequence of the output marked text; every step only wraps a cut
span in markup, never deleting or reordering document characters. -/
theorem insertion_only (doc : List Char) (ps : List Passage)
    (active : Option (List Char)) :
    List.Sublist doc (buildAnnotations doc ps active).processedHtml := by
  unfold buildAnnotations
  by_cases h : doc = [] ∨ ps = []
  · rw [if_pos h]
  · rw [if_neg h]
    exact foldl_place_sublist doc (buildPassageMap ps) active (sortedPassages ps) ⟨doc, []⟩

/-! ### Bounds of the search primitives -/

theorem isPrefixCI_length_le : ∀ w t : List Char, isPrefixCI w t = true → w.length ≤ t.length := by
  intro w
  induction w with
  | nil => intro t _; simp
  | cons a as ih =>
    intro t h
    cases t with
    | nil => simp [isPrefixCI] at h
    | cons b bs =>
      rw [isPrefixCI, Bool.and_eq_true] at h
      simpa using ih bs h.2

theorem findFrom_spec (p : List Char → Bool) : ∀ (s : List Char) (i0 j : Nat),
    findFrom p s i0 = some j →
    i0 ≤ j ∧ j - i0 ≤ s.length ∧ p (s.drop (j - i0)) = true := by
  intro s
  induction s with
  | nil =>
    intro i0 j h
    rw [findFrom] at h
    by_cases hp : p []
    · rw [if_pos hp] at h
      obtain rfl := Option.some.inj h
      exact ⟨le_refl _, by simp, by simpa using hp⟩
    · rw [if_neg hp] at h
      simp at h
  | cons c cs ih =>
    intro i0 j h
    rw [findFrom] at h
    by_cases hp : p (c :: cs)
    · rw [if_pos hp] at h
      obtain rfl := Option.some.inj h
      exact ⟨le_refl _, by simp, by simpa using hp⟩
    · rw [if_neg hp] at h
      obtain ⟨h1, h2, h3⟩ := ih (i0 + 1) j h
      refine ⟨by omega, by simp; omega, ?_⟩
      rw [show j - i0 = (j - (i0 + 1)) + 1 from by omega, List.drop_succ_cons]
      exact h3

theorem idxOf_spec {pat s : List Char} {i : Nat} (h : idxOf pat s = some i) :
    i + pat.length ≤ s.length := by
  unfold idxOf at h
  obtain ⟨_, h2, h3⟩ := findFrom_spec _ s 0 i h
  rw [Nat.sub_zero] at h2 h3
  have hp := List.isPrefixOf_iff_prefix.mp h3
  have := hp.length_le
  rw [List.length_drop] at this
  omega

theorem seqFind_spec {w1 w2 w3 s : List Char} {i : Nat} (h : seqFind w1 w2 w3 s = some i) :
    i + w1.length ≤ s.length := by
  unfold seqFind at h
  obtain ⟨_, h2, h3⟩ := findFrom_spec _ s 0 i h
  rw [Nat.sub_zero] at h2 h3
  unfold seqMatchesHere at h3
  rw [Bool.and_eq_true] at h3
  have := isPrefixCI_length_le w1 (s.drop i) h3.1
  rw [List.length_drop] at this
  omega

theorem escapeRe_length_ge : ∀ s : List Char, s.length ≤ (escapeRe s).length := by
  intro s
  induction s with
  | nil => simp [escapeRe]
  | cons c cs ih =>
    unfold escapeRe at ih ⊢
    rw [List.flatMap_cons, List.length_append, List.length_cons]
    by_cases hc : isMetaChar c
    · rw [if_pos hc]
      have h2 : (['\\', c] : List Char).length = 2 := rfl
      omega
    · rw [if_neg hc]
      have h1 : ([c] : List Char).length = 1 := rfl
      omega

/-! ### C4: span validity, corrected -/

/-- C4 counterexample: an ellipsis-laden haystack makes the normalized
haystack longer than the original; the chunk strategy then returns
startIndex 60 and endIndex 50 on a haystack of length 50, violating
`0 ≤ startIndex < endIndex ≤ haystack.length` as the claim states it. -/
theorem span_validity_counterexample :
    (findBestSubstringMatch (List.replicate 60 'b')
        (List.replicate 20 '…' ++ List.replicate 30 'b')).map
      (fun r => (r.startIndex, r.endIndex)) = some (60, 50) ∧
    (List.replicate 20 '…' ++ List.replicate 30 'b').length = 50 := by
  constructor
  · decide
  · decide

theorem canonOne_length_one {c : Char} (hc : c ≠ '…') : (canonOne c).length = 1 := by
  unfold canonOne
  have h1 : toLowerChar c ≠ '…' := by
    unfold toLowerChar
    by_cases h : 65 ≤ c.toNat ∧ c.toNat ≤ 90
    · rw [if_pos h]
      intro heq
      have := congrArg Char.toNat heq
      rw [charOfNat_toNat_of_le _ (by omega) (by omega)] at this
      have h2026 : ('…').toNat = 0x2026 := by decide
      omega
    · rw [if_neg h]; exact hc
  have h2 : replQuote1 (toLowerChar c) ≠ '…' := by
    unfold replQuote1
    split
    · decide
    · exact h1
  have h3 : replQuote2 (replQuote1 (toLowerChar c)) ≠ '…' := by
    unfold replQuote2
    split
    · decide
    · exact h2
  have h4 : replDash (replQuote2 (replQuote1 (toLowerChar c))) ≠ '…' := by
    unfold replDash
    split
    · decide
    · exact h3
  rw [show replEllipsis (replDash (replQuote2 (replQuote1 (toLowerChar c)))) =
    [replDash (replQuote2 (replQuote1 (toLowerChar c)))] from by
      unfold replEllipsis; rw [if_neg h4]]
  rfl

theorem charCanon_length_of_no_ellipsis : ∀ s : List Char, '…' ∉ s →
    (charCanon s).length = s.length := by
  intro s
  induction s with
  | nil => intro _; rfl
  | cons c cs ih =>
    intro h
    rw [charCanon_eq_flatMap, List.flatMap_cons, List.length_append]
    rw [charCanon_eq_flatMap] at ih
    rw [ih fun hm => h (List.mem_cons_of_mem c hm)]
    rw [canonOne_length_one fun hc => h (hc ▸ List.mem_cons_self c cs), List.length_cons]
    omega

theorem collapseWsAux_length_le : ∀ (l : List Char) (flag : Bool),
    (collapseWsAux flag l).length ≤ l.length := by
  intro l
  induction l with
  | nil => intro _; simp [collapseWsAux]
  | cons c cs ih =>
    intro flag
    rw [collapseWsAux]
    by_cases hc : isWsChar c
    · rw [if_pos hc]
      cases flag with
      | true =>
        rw [if_pos rfl]
        exact le_trans (ih true) (by simp)
      | false =>
        rw [if_neg Bool.false_ne_true]
        simpa using ih true
    · rw [if_neg hc]
      simpa using ih false

theorem jsTrim_length_le (l : List Char) : (jsTrim l).length ≤ l.length := by
  unfold jsTrim
  rw [List.length_reverse]
  have h1 := (List.dropWhile_sublist (l := (l.dropWhile isWsChar).reverse)
    (p := isWsChar)).length_le
  rw [List.length_reverse] at h1
  have h2 := (List.dropWhile_sublist (l := l) (p := isWsChar)).length_le
  omega

theorem normalizeText_length_le {haystack : List Char} (hne : '…' ∉ haystack) :
    (normalizeText haystack).length ≤ haystack.length := by
  unfold normalizeText
  by_cases h0 : haystack = []
  · rw [if_pos h0]; simp
  · rw [if_neg h0]
    have h1 := jsTrim_length_le (collapseWs (charCanon haystack))
    have h2 := collapseWsAux_length_le (charCanon haystack) false
    have h3 := charCanon_length_of_no_ellipsis haystack hne
    unfold collapseWs at h1 ⊢
    omega

theorem chunkStrategy_span {needle haystack nn hn : List Char} {r : MatchResult}
    (h50 : 50 < nn.length) (hlen : hn.length ≤ haystack.length)
    (h : chunkStrategy needle haystack nn hn = some r) :
    r.startIndex < r.endIndex ∧ r.endIndex ≤ haystack.length := by
  unfold chunkStrategy at h
  dsimp only at h
  cases hl : [nn.take 30, jsSubstring nn (nn.length / 2 - 15) (nn.length / 2 + 15),
      nn.drop (nn.length - 30)].filterMap
        (fun ch => (idxOf ch hn).map fun i => (ch, i)) with
  | nil => rw [hl] at h; simp at h
  | cons loc0 locs =>
    rw [hl] at h
    cases hs : List.insertionSort (fun a b => a.2 ≤ b.2) (loc0 :: locs) with
    | nil =>
      have := (List.perm_insertionSort (fun a b : List Char × Nat => a.2 ≤ b.2)
        (loc0 :: locs)).length_eq
      rw [hs] at this
      simp at this
    | cons fc rest =>
      rw [hs] at h
      dsimp only at h
      obtain rfl := Option.some.inj h
      have hfc : fc ∈ loc0 :: locs :=
        (List.perm_insertionSort (fun a b : List Char × Nat => a.2 ≤ b.2)
          (loc0 :: locs)).subset (hs ▸ List.mem_cons_self fc rest)
      rw [← hl] at hfc
      obtain ⟨ch, hch, hmap⟩ := List.mem_filterMap.mp hfc
      cases hio : idxOf ch hn with
      | none => rw [hio] at hmap; simp at hmap
      | some idx =>
        rw [hio, Option.map_some'] at hmap
        obtain rfl := Option.some.inj hmap
        have hchlen : ch.length = 30 := by
          rcases (by simpa using hch : ch = nn.take 30 ∨
              ch = jsSubstring nn (nn.length / 2 - 15) (nn.length / 2 + 15) ∨
              ch = nn.drop (nn.length - 30)) with rfl | rfl | rfl
          · simp; omega
          · unfold jsSubstring
            dsimp only
            simp [List.length_take, List.length_drop]
            omega
          · simp; omega
        have hbound : idx + 30 ≤ hn.length := by
          have := idxOf_spec hio
          omega
        dsimp only
        refine ⟨?_, Nat.min_le_left _ _⟩
        apply lt_min
        · have hest : (if ch = nn.take 30 then idx
              else if ch = jsSubstring nn (nn.length / 2 - 15) (nn.length / 2 + 15)
              then ((idx : ℤ) - (nn.length / 2 : ℕ) + 15).toNat
              else ((idx : ℤ) - (nn.length : ℕ) + 30).toNat)
              < hn.length := by
            split
            · omega
            · split
              · have : ((idx : ℤ) - (nn.length / 2 : ℕ) + 15).toNat ≤ idx := by
                  have hd : (25 : ℤ) ≤ (nn.length / 2 : ℕ) := by
                    have : 25 ≤ nn.length / 2 := by omega
                    omega
                  omega
                omega
              · have : ((idx : ℤ) - (nn.length : ℕ) + 30).toNat ≤ idx := by
                  have hd : (51 : ℤ) ≤ (nn.length : ℕ) := by omega
                  omega
                omega
          exact lt_of_lt_of_le hest hlen
        · omega

theorem tryWindow_span {needle haystack hn : List Char} {w1 w2 w3 : List Char}
    {r : MatchResult} (hw1 : w1 ≠ [])
    (hlen : hn.length ≤ haystack.length)
    (h : tryWindow needle haystack hn [w1, w2, w3] = .ok (some r)) :
    r.startIndex < r.endIndex ∧ r.endIndex ≤ haystack.length := by
  unfold tryWindow at h
  replace h := Except.ok.inj h
  cases hsf : seqFind w1 w2 w3 hn with
  | none => rw [hsf] at h; simp at h
  | some idx =>
    rw [hsf, Option.map_some'] at h
    obtain rfl := Option.some.inj h
    have hb := seqFind_spec hsf
    have hpos : 0 < w1.length := List.length_pos.mpr hw1
    dsimp only
    refine ⟨lt_min (by omega) (by omega), le_trans (Nat.min_le_left _ _) hlen⟩

theorem wordSeqStrategy_span {needle haystack hn : List Char} {words : List (List Char)}
    {r : MatchResult} (hwords : ∀ x ∈ words, x ≠ [])
    (hlen : hn.length ≤ haystack.length)
    (h : wordSeqStrategy needle haystack hn words = some r) :
    r.startIndex < r.endIndex ∧ r.endIndex ≤ haystack.length := by
  unfold wordSeqStrategy at h
  split at h
  · rename_i h3
    obtain ⟨w, hwmem, hw⟩ := firstSomeE_eq_some h
    obtain ⟨i, hi, rfl⟩ := List.mem_map.mp hwmem
    rw [List.mem_range] at hi
    have hlen3 : ((words.drop i).take 3).length = 3 := by
      rw [List.length_take, List.length_drop]
      omega
    obtain ⟨w1, w2, w3, hw123⟩ := List.length_eq_three.mp hlen3
    rw [hw123] at hw
    have hw1mem : w1 ∈ words := by
      have hmem1 : w1 ∈ (words.drop i).take 3 := by
        rw [hw123]
        exact List.mem_cons_self _ _
      exact List.mem_of_mem_drop (List.mem_of_mem_take hmem1)
    exact tryWindow_span (hwords w1 hw1mem) hlen hw
  · simp at h

theorem tryWord_span {needle haystack hn : List Char} {w : List Char} {r : MatchResult}
    (hw : w ≠ []) (hlen : hn.length ≤ haystack.length)
    (h : tryWord needle haystack hn w = .ok (some r)) :
    r.startIndex < r.endIndex ∧ r.endIndex ≤ haystack.length := by
  unfold tryWord at h
  replace h := Except.ok.inj h
  cases hio : idxOf (escapeRe (w.map toLowerChar)) hn with
  | none => rw [hio] at h; simp at h
  | some idx =>
    rw [hio, Option.map_some'] at h
    obtain rfl := Option.some.inj h
    have hb := idxOf_spec hio
    have hpe : 0 < (escapeRe (w.map toLowerChar)).length := by
      have h1 : (w.map toLowerChar).length = w.length := List.length_map _ _
      have h2 := escapeRe_length_ge (w.map toLowerChar)
      have h3 : 0 < w.length := List.length_pos.mpr hw
      omega
    dsimp only
    refine ⟨lt_min (by omega) (by omega), le_trans (Nat.min_le_left _ _) hlen⟩

theorem singleWordStrategy_span {needle haystack hn : List Char}
    {words : List (List Char)} {r : MatchResult}
    (hlen : hn.length ≤ haystack.length)
    (h : singleWordStrategy needle haystack hn words = some r) :
    r.startIndex < r.endIndex ∧ r.endIndex ≤ haystack.length := by
  unfold singleWordStrategy at h
  dsimp only at h
  cases hs : List.insertionSort (fun a b => b.length ≤ a.length)
      (words.filter fun w => 5 < w.length) with
  | nil => rw [hs] at h; simp at h
  | cons a as =>
    rw [hs] at h
    dsimp only at h
    obtain ⟨w, hwmem, hw⟩ := firstSomeE_eq_some h
    have hwf : w ∈ words.filter fun x => 5 < x.length :=
      (List.perm_insertionSort (fun a b : List Char => b.length ≤ a.length)
        (words.filter fun x => 5 < x.length)).subset (hs ▸ hwmem)
    have hw5 : 5 < w.length := by
      have := (List.mem_filter.mp hwf).2
      simpa using this
    exact tryWord_span (by intro hnil; rw [hnil] at hw5; simp at hw5) hlen hw

/-- C4 amended: when the haystack contains no ellipsis character (U+2026)
— so that normalization cannot lengthen it — every returned MatchResult
satisfies `0 ≤ startIndex < endIndex ≤ haystack.length` (indices are
naturals, so `0 ≤ startIndex` is inherent).  Without that restriction the
claim fails: see `span_validity_counterexample`. -/
theorem span_validity_amended (needle haystack : List Char) (r : MatchResult)
    (hne : '…' ∉ haystack)
    (h : findBestSubstringMatch needle haystack = some r) :
    r.startIndex < r.endIndex ∧ r.endIndex ≤ haystack.length := by
  have hlen : (normalizeText haystack).length ≤ haystack.length :=
    normalizeText_length_le hne
  rcases confidence_tiers needle haystack r h with ⟨h50, hc, _⟩ | ⟨hw, _⟩ | ⟨hs, _⟩
  · exact chunkStrategy_span h50 hlen hc
  · refine wordSeqStrategy_span ?_ hlen hw
    intro x hx hnil
    have := (List.mem_filter.mp hx).2
    rw [hnil] at this
    simp at this
  · exact singleWordStrategy_span hlen hs

theorem span_validity_amended_witness :
    ('…' ∉ (("the elephant walks").toList) ∧
      findBestSubstringMatch (("zebra elephant").toList) (("the elephant walks").toList) =
        some ⟨0, 18, ("the elephant walks").toList, mkRat 7 10⟩) ∧
    (0 : Nat) < 18 ∧ 18 ≤ (("the elephant walks").toList).length :=
  ⟨⟨by decide, by decide⟩,
    span_validity_amended (("zebra elephant").toList) (("the elephant walks").toList)
      ⟨0, 18, ("the elephant walks").toList, mkRat 7 10⟩ (by decide) (by decide)⟩

/-! ### C5: the single-word fallback, corrected -/

/-- C5 counterexample: the fallback searches for the escaped token, not
the plain token.  The quote `(abcdef) zz` has the token `(abcdef)`
(length 8 > 5) which appears verbatim in the normalized haystack, yet the
matcher returns none because `indexOf` is given the text with inserted
backslashes. -/
theorem single_word_counterexample :
    findBestSubstringMatch (("(abcdef) zz").toList) (("here is (abcdef) indeed ok").toList) =
      none ∧
    (("(abcdef)").toList) ∈ splitWs (("(abcdef) zz").toList) ∧
    5 < (("(abcdef)").toList).length ∧
    List.IsInfix ((("(abcdef)").toList).map toLowerChar)
      (normalizeText (("here is (abcdef) indeed ok").toList)) ∧
    10 ≤ (("(abcdef) zz").toList).length := by
  refine ⟨by decide, by decide, by decide, ?_, by decide⟩
  exact ⟨("here is ").toList, (" indeed ok").toList, by decide⟩

theorem findFrom_isSome (p : List Char → Bool) : ∀ (s : List Char) (i : Nat),
    (∃ k, p (s.drop k) = true) → (findFrom p s i).isSome = true := by
  intro s
  induction s with
  | nil =>
    rintro i ⟨k, hk⟩
    rw [List.drop_nil] at hk
    rw [findFrom, if_pos hk]
    rfl
  | cons c cs ih =>
    rintro i ⟨k, hk⟩
    rw [findFrom]
    by_cases hp : p (c :: cs)
    · rw [if_pos hp]; rfl
    · rw [if_neg hp]
      apply ih
      cases k with
      | zero => rw [List.drop_zero] at hk; exact absurd hk hp
      | succ k' => rw [List.drop_succ_cons] at hk; exact ⟨k', hk⟩

theorem idxOf_isSome_of_infix {pat s : List Char} (h : List.IsInfix pat s) :
    (idxOf pat s).isSome = true := by
  obtain ⟨t, u, htu⟩ := h
  apply findFrom_isSome
  refine ⟨t.length, ?_⟩
  have hd : s.drop t.length = pat ++ u := by
    rw [← htu, List.append_assoc, List.drop_left]
  rw [hd]
  exact List.isPrefixOf_iff_prefix.mpr ⟨u, rfl⟩

theorem escapeRe_id {s : List Char} (h : ∀ c ∈ s, isMetaChar c = false) :
    escapeRe s = s := by
  induction s with
  | nil => rfl
  | cons c cs ih =>
    unfold escapeRe at ih ⊢
    rw [List.flatMap_cons, if_neg (by simp [h c (List.mem_cons_self c cs)])]
    rw [ih fun d hd => h d (List.mem_cons_of_mem c hd)]
    rfl

theorem isMetaChar_false_of_toNat {x : Char} (h1 : 97 ≤ x.toNat) (h2 : x.toNat ≤ 122) :
    isMetaChar x = false := by
  unfold isMetaChar
  rw [decide_eq_false_iff_not]
  rintro (rfl | rfl | rfl | rfl | rfl | rfl | rfl | rfl | rfl | rfl | rfl | rfl | rfl | rfl) <;>
    first
      | exact absurd h1 (by decide)
      | exact absurd h2 (by decide)

theorem isMetaChar_toLowerChar {c : Char} (h : isMetaChar c = false) :
    isMetaChar (toLowerChar c) = false := by
  unfold toLowerChar
  by_cases hc : 65 ≤ c.toNat ∧ c.toNat ≤ 90
  · rw [if_pos hc]
    have ht : (Char.ofNat (c.toNat + 32)).toNat = c.toNat + 32 :=
      charOfNat_toNat_of_le _ (by omega) (by omega)
    exact isMetaChar_false_of_toNat (by omega) (by omega)
  · rw [if_neg hc]
    exact h

theorem firstSomeE_isSome {α β : Type} {f : α → Except Unit (Option β)} : ∀ {l : List α},
    (∃ a ∈ l, ∃ b, f a = .ok (some b)) → (firstSomeE f l).isSome = true := by
  intro l
  induction l with
  | nil => rintro ⟨a, ha, _⟩; exact absurd ha (List.not_mem_nil a)
  | cons a as ih =>
    rintro ⟨a', ha', b, hb⟩
    rw [firstSomeE]
    cases hfa : f a with
    | error e =>
      apply ih
      rcases List.mem_cons.mp ha' with rfl | hmem
      · rw [hb] at hfa; simp at hfa
      · exact ⟨a', hmem, b, hb⟩
    | ok ob =>
      cases ob with
      | none =>
        apply ih
        rcases List.mem_cons.mp ha' with rfl | hmem
        · rw [hb] at hfa; simp at hfa
        · exact ⟨a', hmem, b, hb⟩
      | some b' => rfl

theorem singleWordStrategy_isSome {needle haystack hn : List Char}
    {words : List (List Char)} {w : List Char} (hmem : w ∈ words) (hw5 : 5 < w.length)
    (htw : ∃ b, tryWord needle haystack hn w = .ok (some b)) :
    (singleWordStrategy needle haystack hn words).isSome = true := by
  unfold singleWordStrategy
  dsimp only
  have hwf : w ∈ List.insertionSort (fun a b : List Char => b.length ≤ a.length)
      (words.filter fun x => 5 < x.length) :=
    (List.perm_insertionSort (fun a b : List Char => b.length ≤ a.length)
      (words.filter fun x => 5 < x.length)).mem_iff.mpr
      (List.mem_filter.mpr ⟨hmem, by simpa⟩)
  cases hs : List.insertionSort (fun a b : List Char => b.length ≤ a.length)
      (words.filter fun x => 5 < x.length) with
  | nil => rw [hs] at hwf; exact absurd hwf (List.not_mem_nil w)
  | cons a as =>
    rw [hs] at hwf
    exact firstSomeE_isSome ⟨w, hwf, htw⟩

/-- C5 amended: among the whitespace-split tokens of the raw quote, those
longer than 5 characters are tried longest-first, but each try searches
the normalized haystack for the lower-cased and then regex-escaped token
(`indexOf` of the text with inserted backslashes), not the plain token.
Consequently the guarantee only holds for tokens free of regex
metacharacters: a quote of raw length at least 10 containing a
metacharacter-free token longer than 5 characters whose lower-casing
occurs in the normalized haystack always produces a match. -/
theorem single_word_guarantee (needle haystack w : List Char)
    (hlen10 : 10 ≤ needle.length)
    (hmem : w ∈ splitWs needle)
    (hw5 : 5 < w.length)
    (hmeta : ∀ c ∈ w, isMetaChar c = false)
    (hinf : List.IsInfix (w.map toLowerChar) (normalizeText haystack)) :
    (findBestSubstringMatch needle haystack).isSome = true := by
  unfold findBestSubstringMatch
  rw [if_neg (by omega)]
  dsimp only
  cases hch : (if 50 < (normalizeText needle).length then
      chunkStrategy needle haystack (normalizeText needle) (normalizeText haystack)
    else none) with
  | some r => rfl
  | none =>
    dsimp only
    cases hws : wordSeqStrategy needle haystack (normalizeText haystack)
        ((splitWs needle).filter fun w => 3 < w.length) with
    | some r => rfl
    | none =>
      dsimp only
      refine singleWordStrategy_isSome (w := w) ?_ hw5 ?_
      · exact List.mem_filter.mpr ⟨hmem, by simp; omega⟩
      · unfold tryWord
        have hesc : escapeRe (w.map toLowerChar) = w.map toLowerChar := by
          apply escapeRe_id
          intro c hc
          obtain ⟨c0, hc0, rfl⟩ := List.mem_map.mp hc
          exact isMetaChar_toLowerChar (hmeta c0 hc0)
        rw [hesc]
        have hio := idxOf_isSome_of_infix hinf
        cases hio2 : idxOf (w.map toLowerChar) (normalizeText haystack) with
        | none => rw [hio2] at hio; simp at hio
        | some idx => exact ⟨_, by rw [Option.map_some']⟩

theorem single_word_guarantee_witness :
    (10 ≤ (("zebra elephant").toList).length ∧
      (("elephant").toList) ∈ splitWs (("zebra elephant").toList) ∧
      5 < (("elephant").toList).length) ∧
    (findBestSubstringMatch (("zebra elephant").toList)
      (("the elephant walks").toList)).isSome = true :=
  ⟨⟨by decide, by decide, by decide⟩,
    single_word_guarantee (("zebra elephant").toList) (("the elephant walks").toList)
      (("elephant").toList) (by decide) (by decide) (by decide) (by decide)
      ⟨("the ").toList, (" walks").toList, by decide⟩⟩

/-! ### C1: the final list is sorted, unmatched last, original order kept -/

instance : IsTotal AnnotRec annRecLE := by
  constructor
  intro a b
  unfold annRecLE
  cases ha : a.startIndex with
  | none =>
    cases hb : b.startIndex with
    | none => left; rfl
    | some y => right; rfl
  | some x =>
    cases hb : b.startIndex with
    | none => left; rfl
    | some y =>
      rcases le_total x y with h | h
      · left; simpa [skLE] using h
      · right; simpa [skLE] using h

instance : IsTrans AnnotRec annRecLE := by
  constructor
  intro a b c hab hbc
  unfold annRecLE at hab hbc ⊢
  cases ha : a.startIndex with
  | none =>
    rw [ha] at hab
    cases hb : b.startIndex with
    | none =>
      rw [hb] at hbc
      exact hbc
    | some y => rw [hb] at hab; simp [skLE] at hab
  | some x =>
    cases hc : c.startIndex with
    | none => rfl
    | some z =>
      rw [ha] at hab
      rw [hc] at hbc
      cases hb : b.startIndex with
      | none => rw [hb] at hbc; simp [skLE] at hbc
      | some y =>
        rw [hb] at hab hbc
        simp [skLE] at hab hbc ⊢
        omega

theorem orderedInsert_append {x : AnnotRec} : ∀ (zs ys : List AnnotRec),
    (∀ y ∈ ys, annRecLE x y) →
    List.orderedInsert annRecLE x (zs ++ ys) = List.orderedInsert annRecLE x zs ++ ys := by
  intro zs
  induction zs with
  | nil =>
    intro ys hys
    cases ys with
    | nil => rfl
    | cons y ys' =>
      rw [List.nil_append]
      simp only [List.orderedInsert]
      rw [if_pos (hys y (List.mem_cons_self y ys'))]
      rfl
  | cons z zs' ih =>
    intro ys hys
    rw [List.cons_append]
    simp only [List.orderedInsert]
    by_cases hxz : annRecLE x z
    · rw [if_pos hxz, if_pos hxz]
      rfl
    · rw [if_neg hxz, if_neg hxz, ih ys hys]
      rfl

theorem insertionSort_append : ∀ (xs ys : List AnnotRec),
    (∀ x ∈ xs, ∀ y ∈ ys, annRecLE x y) →
    List.Sorted annRecLE ys →
    List.insertionSort annRecLE (xs ++ ys) = List.insertionSort annRecLE xs ++ ys := by
  intro xs
  induction xs with
  | nil =>
    intro ys _ hs
    rw [List.nil_append, List.insertionSort]
    exact hs.insertionSort_eq
  | cons x xs' ih =>
    intro ys hxy hs
    rw [List.cons_append, List.insertionSort,
      ih ys (fun a ha => hxy a (List.mem_cons_of_mem x ha)) hs,
      orderedInsert_append _ ys (hxy x (List.mem_cons_self x xs')),
      List.insertionSort]

theorem matchedAnnotationsData_isSome {st : PlaceState} :
    ∀ a ∈ matchedAnnotationsData st, a.startIndex.isSome = true := by
  intro a ha
  unfold matchedAnnotationsData at ha
  obtain ⟨kv, _, rfl⟩ := List.mem_map.mp ha
  rfl

theorem unmatchedAnnotationsData_none {ps : List Passage} {st : PlaceState} :
    ∀ a ∈ unmatchedAnnotationsData ps st, a.startIndex = none := by
  intro a ha
  unfold unmatchedAnnotationsData at ha
  obtain ⟨ip, _, rfl⟩ := List.mem_map.mp ha
  rfl

theorem buildAnnotations_split (doc : List Char) (ps : List Passage)
    (active : Option (List Char)) (h : ¬ (doc = [] ∨ ps = [])) :
    (buildAnnotations doc ps active).annotationData =
      List.insertionSort annRecLE (matchedAnnotationsData (runPlacement doc ps active)) ++
        unmatchedAnnotationsData ps (runPlacement doc ps active) := by
  unfold buildAnnotations
  rw [if_neg h]
  apply insertionSort_append
  · intro x hx y hy
    have hxs := matchedAnnotationsData_isSome x hx
    have hyn := unmatchedAnnotationsData_none y hy
    unfold annRecLE
    rw [hyn]
    cases hx2 : x.startIndex with
    | none => rw [hx2] at hxs; simp at hxs
    | some v => rfl
  · apply List.pairwise_of_forall_mem_list
    intro a ha b hb
    unfold annRecLE
    rw [unmatchedAnnotationsData_none a ha, unmatchedAnnotationsData_none b hb]
    rfl

theorem filter_none_split {m u : List AnnotRec}
    (hm : ∀ a ∈ m, a.startIndex.isSome = true) (hu : ∀ a ∈ u, a.startIndex = none) :
    (m ++ u).filter (fun a => a.startIndex = none) = u := by
  rw [List.filter_append]
  rw [List.filter_eq_nil_iff.mpr ?_, List.filter_eq_self.mpr ?_, List.nil_append]
  · intro a ha
    simp [hu a ha]
  · intro a ha
    have := hm a ha
    cases h2 : a.startIndex with
    | none => rw [h2] at this; simp at this
    | some v => rw [h2] at this; simp

/-- C1: the final annotation list is sorted ascending by the stable
original-text start key (the `Infinity` sentinel of unmatched items
modelled as `none`, maximal for `annRecLE`); every unmatched annotation
comes after every matched one; and the unmatched annotations appear
exactly as `unmatchedAnnotationsData` builds them — in original
feedback-list order (the shared sentinel ties are broken stably). -/
theorem annotation_order (doc : List Char) (ps : List Passage)
    (active : Option (List Char)) :
    List.Sorted annRecLE ((buildAnnotations doc ps active).annotationData) ∧
    (∃ m, (buildAnnotations doc ps active).annotationData =
        m ++ ((buildAnnotations doc ps active).annotationData.filter
          fun a => a.startIndex = none) ∧
      ∀ a ∈ m, a.startIndex.isSome = true) ∧
    ((doc = [] ∨ ps = []) → (buildAnnotations doc ps active).annotationData = []) ∧
    (¬ (doc = [] ∨ ps = []) →
      ((buildAnnotations doc ps active).annotationData.filter
          fun a => a.startIndex = none) =
        unmatchedAnnotationsData ps (runPlacement doc ps active)) := by
  by_cases h : doc = [] ∨ ps = []
  · have he : (buildAnnotations doc ps active).annotationData = [] := by
      unfold buildAnnotations
      rw [if_pos h]
    refine ⟨by rw [he]; exact List.sorted_nil, ⟨[], by rw [he]; rfl, by simp⟩,
      fun _ => he, fun hc => absurd h hc⟩
  · have hsplit := buildAnnotations_split doc ps active h
    have hmS : ∀ a ∈ List.insertionSort annRecLE
        (matchedAnnotationsData (runPlacement doc ps active)), a.startIndex.isSome = true := by
      intro a ha
      exact matchedAnnotationsData_isSome a
        ((List.perm_insertionSort annRecLE _).subset ha)
    have hfilter : ((buildAnnotations doc ps active).annotationData.filter
        fun a => a.startIndex = none) =
        unmatchedAnnotationsData ps (runPlacement doc ps active) := by
      rw [hsplit]
      exact filter_none_split hmS unmatchedAnnotationsData_none
    refine ⟨?_, ?_, fun hc => absurd hc h, fun _ => hfilter⟩
    · rw [hsplit]
      have hsorted : List.Sorted annRecLE (List.insertionSort annRecLE
          (matchedAnnotationsData (runPlacement doc ps active))) :=
        List.sorted_insertionSort annRecLE _
      refine List.pairwise_append.mpr ⟨hsorted, ?_, ?_⟩
      · apply List.pairwise_of_forall_mem_list
        intro a ha b hb
        unfold annRecLE
        rw [unmatchedAnnotationsData_none a ha, unmatchedAnnotationsData_none b hb]
        rfl
      · intro a ha b hb
        have has := hmS a ha
        unfold annRecLE
        rw [unmatchedAnnotationsData_none b hb]
        cases hx2 : a.startIndex with
        | none => rw [hx2] at has; simp at has
        | some v => rfl
    · refine ⟨List.insertionSort annRecLE
        (matchedAnnotationsData (runPlacement doc ps active)), ?_, hmS⟩
      rw [hfilter, hsplit]

theorem annotation_order_witness :
    ((buildAnnotations (("the elephant walks").toList)
        [⟨("zebra elephant").toList, ("c0").toList, none⟩,
         ⟨("qqqqq wwwww").toList, ("c1").toList, none⟩] none).annotationData.filter
      fun a => a.startIndex = none) =
      unmatchedAnnotationsData
        [⟨("zebra elephant").toList, ("c0").toList, none⟩,
         ⟨("qqqqq wwwww").toList, ("c1").toList, none⟩]
        (runPlacement (("the elephant walks").toList)
          [⟨("zebra elephant").toList, ("c0").toList, none⟩,
           ⟨("qqqqq wwwww").toList, ("c1").toList, none⟩] none) :=
  (annotation_order (("the elephant walks").toList)
    [⟨("zebra elephant").toList, ("c0").toList, none⟩,
     ⟨("qqqqq wwwww").toList, ("c1").toList, none⟩] none).2.2.2 (by decide)

/-! ### The placement fold characterized (shared by C2 and C3) -/

theorem mapHas_append {β : Type} (m1 m2 : List (List Char × β)) (k : List Char) :
    mapHas (m1 ++ m2) k = (mapHas m1 k || mapHas m2 k) :=
  List.any_append

theorem mapHas_iff {β : Type} {m : List (List Char × β)} {k : List Char} :
    mapHas m k = true ↔ k ∈ m.map Prod.fst := by
  unfold mapHas
  rw [List.any_eq_true]
  constructor
  · rintro ⟨kv, hkv, he⟩
    rw [decide_eq_true_iff] at he
    exact he ▸ List.mem_map.mpr ⟨kv, hkv, rfl⟩
  · intro h
    obtain ⟨kv, hkv, he⟩ := List.mem_map.mp h
    exact ⟨kv, hkv, by rw [he]; simp⟩

theorem mapSet_fresh {β : Type} {m : List (List Char × β)} {k : List Char} {v : β}
    (h : mapHas m k = false) : mapSet m k v = m ++ [(k, v)] := by
  unfold mapSet
  rw [if_neg (by simp [h])]

theorem foldl_mapSet_fresh : ∀ (l : List (ℕ × Passage))
    (m : List (List Char × (Passage × List Char))),
    (∀ ip ∈ l, mapHas m ip.2.quote = false) →
    (l.map fun ip => ip.2.quote).Nodup →
    l.foldl (fun m ip => mapSet m ip.2.quote (ip.2, matchedId ip.1)) m =
      m ++ l.map fun ip => (ip.2.quote, (ip.2, matchedId ip.1)) := by
  intro l
  induction l with
  | nil => intro m _ _; simp
  | cons ip rest ih =>
    intro m hfresh hnd
    rw [List.foldl_cons, mapSet_fresh (hfresh ip (List.mem_cons_self ip rest))]
    rw [List.map_cons] at hnd
    have hhead := (List.nodup_cons.mp hnd).1
    rw [ih (m ++ [(ip.2.quote, (ip.2, matchedId ip.1))]) ?_ (List.nodup_cons.mp hnd).2]
    · rw [List.map_cons, List.append_assoc]
      rfl
    · intro jp hjp
      rw [mapHas_append, hfresh jp (List.mem_cons_of_mem _ hjp)]
      have hne : ip.2.quote ≠ jp.2.quote :=
        fun he => hhead (he ▸ List.mem_map.mpr ⟨jp, hjp, rfl⟩)
      unfold mapHas
      simp [hne]

theorem enum_quotes_map (ps : List Passage) :
    ps.enum.map (fun ip => ip.2.quote) = ps.map (·.quote) := by
  rw [show (fun ip : ℕ × Passage => ip.2.quote) =
    (fun p : Passage => p.quote) ∘ Prod.snd from rfl]
  rw [← List.map_map, List.enum_map_snd]

theorem buildPassageMap_eq (ps : List Passage) (hnd : (ps.map (·.quote)).Nodup) :
    buildPassageMap ps = ps.enum.map fun ip => (ip.2.quote, (ip.2, matchedId ip.1)) := by
  unfold buildPassageMap
  rw [foldl_mapSet_fresh ps.enum [] (fun _ _ => rfl) (by rw [enum_quotes_map]; exact hnd)]
  rw [List.nil_append]

theorem mapGet_of_mem_enumMap : ∀ (l : List (ℕ × Passage)) (i : ℕ) (p : Passage),
    ((l.map fun ip => ip.2.quote).Nodup) → (i, p) ∈ l →
    mapGet (l.map fun ip => (ip.2.quote, (ip.2, matchedId ip.1))) p.quote =
      some (p, matchedId i) := by
  intro l
  induction l with
  | nil => intro i p _ h; exact absurd h (List.not_mem_nil _)
  | cons jp rest ih =>
    intro i p hnd hmem
    rw [List.map_cons] at hnd ⊢
    unfold mapGet
    by_cases hq : jp.2.quote = p.quote
    · rcases List.mem_cons.mp hmem with heq | hmem'
      · rw [List.find?_cons_of_pos _ (by rw [← heq]; simp)]
        rw [← heq]
        rfl
      · exfalso
        exact (List.nodup_cons.mp hnd).1
          (hq ▸ List.mem_map.mpr ⟨(i, p), hmem', rfl⟩)
    · rcases List.mem_cons.mp hmem with heq | hmem'
      · exact absurd (by rw [← heq]) hq
      · rw [List.find?_cons_of_neg _ (by simp [hq])]
        have := ih i p (List.nodup_cons.mp hnd).2 hmem'
        unfold mapGet at this
        exact this

theorem mapGet_buildPassageMap {ps : List Passage} {i : ℕ} {p : Passage}
    (hnd : (ps.map (·.quote)).Nodup) (hip : ps.get? i = some p) :
    mapGet (buildPassageMap ps) p.quote = some (p, matchedId i) := by
  rw [buildPassageMap_eq ps hnd]
  exact mapGet_of_mem_enumMap ps.enum i p
    (by rw [enum_quotes_map]; exact hnd) (List.mem_enum_iff_get?.mpr hip)

theorem foldl_matched_spec (doc : List Char)
    (pmap : List (List Char × (Passage × List Char))) (active : Option (List Char)) :
    ∀ (l : List Passage) (st : PlaceState),
    (∀ p ∈ l, mapHas st.matched p.quote = false) →
    ((l.map (·.quote)).Nodup) →
    ∃ sub : List Passage, List.Sublist sub l ∧
      (l.foldl (placeStep doc pmap active) st).matched =
        st.matched ++ sub.map (matchedEntry doc pmap) := by
  intro l
  induction l with
  | nil => intro st _ _; exact ⟨[], List.nil_sublist _, by simp⟩
  | cons p rest ih =>
    intro st hfresh hnd
    rw [List.foldl_cons]
    rw [List.map_cons] at hnd
    have hndr := (List.nodup_cons.mp hnd).2
    have hhead := (List.nodup_cons.mp hnd).1
    cases hg : mapGet pmap p.quote with
    | none =>
      have hps : placeStep doc pmap active st p = st := by
        unfold placeStep
        rw [hg]
      rw [hps]
      obtain ⟨sub, hsub, heq⟩ :=
        ih st (fun q hq => hfresh q (List.mem_cons_of_mem _ hq)) hndr
      exact ⟨sub, hsub.cons p, heq⟩
    | some info =>
      cases hm : findBestSubstringMatch p.quote st.processedHtml with
      | none =>
        have hps : placeStep doc pmap active st p = st := by
          unfold placeStep
          rw [hg, hm]
        rw [hps]
        obtain ⟨sub, hsub, heq⟩ :=
          ih st (fun q hq => hfresh q (List.mem_cons_of_mem _ hq)) hndr
        exact ⟨sub, hsub.cons p, heq⟩
      | some m =>
        by_cases hsim : mkRat 7 10 ≤ m.similarity
        · have hps : (placeStep doc pmap active st p).matched =
              st.matched ++ [matchedEntry doc pmap p] := by
            simp only [placeStep, matchedEntry, hg, hm, if_pos hsim]
            rw [mapSet_fresh (hfresh p (List.mem_cons_self p rest))]
          have hfresh2 : ∀ q ∈ rest,
              mapHas (placeStep doc pmap active st p).matched q.quote = false := by
            intro q hq
            rw [hps, mapHas_append, hfresh q (List.mem_cons_of_mem _ hq)]
            have hne : p.quote ≠ q.quote :=
              fun he => hhead (he ▸ List.mem_map.mpr ⟨q, hq, rfl⟩)
            unfold matchedEntry mapHas
            simp [hne]
          obtain ⟨sub, hsub, heq⟩ := ih (placeStep doc pmap active st p) hfresh2 hndr
          refine ⟨p :: sub, hsub.cons₂ p, ?_⟩
          rw [heq, hps, List.append_assoc, List.map_cons]
          rfl
        · have hps : placeStep doc pmap active st p = st := by
            simp only [placeStep, hg, hm, if_neg hsim]
          rw [hps]
          obtain ⟨sub, hsub, heq⟩ :=
            ih st (fun q hq => hfresh q (List.mem_cons_of_mem _ hq)) hndr
          exact ⟨sub, hsub.cons p, heq⟩

theorem sortedPassages_perm (ps : List Passage) : (sortedPassages ps).Perm ps := by
  unfold sortedPassages
  exact List.perm_insertionSort _ ps

theorem runPlacement_spec (doc : List Char) (ps : List Passage)
    (active : Option (List Char)) (hnd : (ps.map (·.quote)).Nodup) :
    ∃ sub : List Passage, List.Sublist sub (sortedPassages ps) ∧
      (runPlacement doc ps active).matched =
        sub.map (matchedEntry doc (buildPassageMap ps)) := by
  have hperm : List.Perm (sortedPassages ps) ps := sortedPassages_perm ps
  have hnd' : ((sortedPassages ps).map (·.quote)).Nodup :=
    ((hperm.map (·.quote)).nodup_iff).mpr hnd
  obtain ⟨sub, hsub, heq⟩ := foldl_matched_spec doc (buildPassageMap ps) active
    (sortedPassages ps) ⟨doc, []⟩ (fun _ _ => rfl) hnd'
  refine ⟨sub, hsub, ?_⟩
  unfold runPlacement
  rw [heq]
  rfl

theorem matchedAnnotationsData_mem {doc : List Char}
    {pmap : List (List Char × (Passage × List Char))} {sub : List Passage}
    {st : PlaceState} (h : st.matched = sub.map (matchedEntry doc pmap))
    {a : AnnotRec} (ha : a ∈ matchedAnnotationsData st) :
    ∃ p ∈ sub, a.quote = p.quote ∧
      a.id = (match mapGet pmap p.quote with
        | some info => info.2
        | none => ([] : List Char)) := by
  unfold matchedAnnotationsData at ha
  rw [h, List.map_map] at ha
  obtain ⟨p, hp, rfl⟩ := List.mem_map.mp ha
  exact ⟨p, hp, rfl, rfl⟩

/-! ### C2: annotation ids, corrected -/

/-- C2 counterexample: the same second feedback item (quote `qqqqq wwwww`,
original index 1) receives id `unmatched-0` when the first item matches
and `unmatched-1` when it does not — the id of an unmatched item is its
rank among unmatched items, so it depends on the other items' match
success, not on the item's original index. -/
theorem annotation_id_counterexample :
    ((buildAnnotations (("the elephant walks").toList)
        [⟨("zebra elephant").toList, ("c0").toList, none⟩,
         ⟨("qqqqq wwwww").toList, ("c1").toList, none⟩] none).annotationData.map
      fun a => (a.quote, a.id)) =
      [((("zebra elephant").toList), ("annotation-0").toList),
       ((("qqqqq wwwww").toList), ("unmatched-0").toList)] ∧
    ((buildAnnotations (("xxxx").toList)
        [⟨("zebra elephant").toList, ("c0").toList, none⟩,
         ⟨("qqqqq wwwww").toList, ("c1").toList, none⟩] none).annotationData.map
      fun a => (a.quote, a.id)) =
      [((("zebra elephant").toList), ("unmatched-0").toList),
       ((("qqqqq wwwww").toList), ("unmatched-1").toList)] :=
  ⟨by decide, by decide⟩

/-- C2 amended: matched annotations carry id `annotation-<i>` with `i`
the item's index in the original input list, assigned via `passageMap`
before any matching; unmatched annotations instead carry id
`unmatched-<j>` with `j` the item's rank among the unmatched items in
original order — an id that depends on which other items matched. -/
theorem annotation_ids_amended (doc : List Char) (ps : List Passage)
    (active : Option (List Char)) (hnd : (ps.map (·.quote)).Nodup) :
    ∀ a ∈ (buildAnnotations doc ps active).annotationData,
      (a.startIndex.isSome = true →
        ∃ i p, ps.get? i = some p ∧ a.quote = p.quote ∧ a.id = matchedId i) ∧
      (a.startIndex = none →
        ∃ j p, (ps.filter fun q =>
            ¬ mapHas (runPlacement doc ps active).matched q.quote).get? j = some p ∧
          a.quote = p.quote ∧ a.id = unmatchedId j) := by
  intro a ha
  by_cases h : doc = [] ∨ ps = []
  · unfold buildAnnotations at ha
    rw [if_pos h] at ha
    exact absurd ha (List.not_mem_nil a)
  · rw [buildAnnotations_split doc ps active h] at ha
    rcases List.mem_append.mp ha with hm | hu
    · have hm' : a ∈ matchedAnnotationsData (runPlacement doc ps active) :=
        (List.perm_insertionSort annRecLE _).subset hm
      obtain ⟨sub, hsub, heq⟩ := runPlacement_spec doc ps active hnd
      obtain ⟨p, hp, hq, hid⟩ := matchedAnnotationsData_mem heq hm'
      have hpps : p ∈ ps := (sortedPassages_perm ps).subset (hsub.subset hp)
      obtain ⟨i, hi⟩ := List.mem_iff_get?.mp hpps
      constructor
      · intro _
        refine ⟨i, p, hi, hq, ?_⟩
        rw [hid, mapGet_buildPassageMap hnd hi]
      · intro hnone
        have := matchedAnnotationsData_isSome a hm'
        rw [hnone] at this
        simp at this
    · unfold unmatchedAnnotationsData at hu
      obtain ⟨⟨j, p⟩, hip, rfl⟩ := List.mem_map.mp hu
      constructor
      · intro hs
        simp at hs
      · intro _
        exact ⟨j, p, List.mem_enum_iff_get?.mp hip, rfl, rfl⟩

theorem annotation_ids_amended_witness :
    ∃ j p, (([⟨("zebra elephant").toList, ("c0").toList, none⟩,
        ⟨("qqqqq wwwww").toList, ("c1").toList, none⟩] : List Passage).filter fun q =>
          ¬ mapHas (runPlacement (("the elephant walks").toList)
            [⟨("zebra elephant").toList, ("c0").toList, none⟩,
             ⟨("qqqqq wwwww").toList, ("c1").toList, none⟩] none).matched q.quote).get? j =
        some p ∧
      (⟨("unmatched-0").toList, ("c1").toList, none, ("qqqqq wwwww").toList,
        none⟩ : AnnotRec).quote = p.quote ∧
      (⟨("unmatched-0").toList, ("c1").toList, none, ("qqqqq wwwww").toList,
        none⟩ : AnnotRec).id = unmatchedId j :=
  ((annotation_ids_amended (("the elephant walks").toList)
      [⟨("zebra elephant").toList, ("c0").toList, none⟩,
       ⟨("qqqqq wwwww").toList, ("c1").toList, none⟩] none (by decide))
    ⟨("unmatched-0").toList, ("c1").toList, none, ("qqqqq wwwww").toList, none⟩
    (by decide)).2 rfl

/-! ### C3: one record per item, corrected -/

/-- C3 counterexample: two feedback items with identical matchable quotes
produce a single output record — `matchedPassages` is keyed by quote, so
the second item's record overwrites the first — and both are excluded
from the unmatched list; the output has length 1 for an input of
length 2. -/
theorem placement_record_counterexample :
    ((buildAnnotations (("the elephant walks").toList)
      [⟨("zebra elephant").toList, ("c0").toList, none⟩,
       ⟨("zebra elephant").toList, ("c1").toList, none⟩] none).annotationData).length = 1 ∧
    ([⟨("zebra elephant").toList, ("c0").toList, none⟩,
      ⟨("zebra elephant").toList, ("c1").toList, none⟩] : List Passage).length = 2 :=
  ⟨by decide, by decide⟩

theorem matchedAnnotationsData_triples {doc : List Char}
    {pmap : List (List Char × (Passage × List Char))} {sub : List Passage}
    {st : PlaceState} (h : st.matched = sub.map (matchedEntry doc pmap)) :
    (matchedAnnotationsData st).map (fun a => (a.quote, a.feedback, a.guideline)) =
      sub.map fun p => (p.quote, p.feedback, p.guideline) := by
  unfold matchedAnnotationsData
  rw [h, List.map_map, List.map_map]
  rfl

theorem unmatchedAnnotationsData_triples (ps : List Passage) (st : PlaceState) :
    (unmatchedAnnotationsData ps st).map (fun a => (a.quote, a.feedback, a.guideline)) =
      (ps.filter fun p => ¬ mapHas st.matched p.quote).map
        fun p => (p.quote, p.feedback, p.guideline) := by
  unfold unmatchedAnnotationsData
  rw [List.map_map]
  calc ((ps.filter fun p => ¬ mapHas st.matched p.quote).enum.map
        ((fun p : Passage => (p.quote, p.feedback, p.guideline)) ∘ Prod.snd)) =
      (((ps.filter fun p => ¬ mapHas st.matched p.quote).enum.map Prod.snd).map
        fun p => (p.quote, p.feedback, p.guideline)) := by
        rw [List.map_map]
    _ = _ := by rw [List.enum_map_snd]

/-- C3 amended: for every nonempty document text and every feedback list
whose quotes are pairwise distinct, the pipeline emits exactly one record
per input item, carrying that item's quote, comment and guideline
reference (the output triples are a permutation of the input triples),
and the output length equals the input length.  With duplicate quotes the
quote-keyed `matchedPassages` map collapses matched duplicates: see
`placement_record_counterexample`. -/
theorem placement_record_per_item (doc : List Char) (ps : List Passage)
    (active : Option (List Char)) (hdoc : doc ≠ [])
    (hnd : (ps.map (·.quote)).Nodup) :
    List.Perm ((buildAnnotations doc ps active).annotationData.map
        fun a => (a.quote, a.feedback, a.guideline))
      (ps.map fun p => (p.quote, p.feedback, p.guideline)) ∧
    (buildAnnotations doc ps active).annotationData.length = ps.length := by
  by_cases hps : ps = []
  · subst hps
    unfold buildAnnotations
    rw [if_pos (Or.inr rfl)]
    exact ⟨List.Perm.refl _, rfl⟩
  · have h : ¬ (doc = [] ∨ ps = []) := fun hor => hor.elim hdoc hps
    obtain ⟨sub, hsub, heq⟩ := runPlacement_spec doc ps active hnd
    have hndps : ps.Nodup := hnd.of_map _
    have hndsorted : (sortedPassages ps).Nodup :=
      ((sortedPassages_perm ps).nodup_iff).mpr hndps
    have hsubnd : sub.Nodup := hsub.nodup hndsorted
    have hkey : ∀ q, mapHas (runPlacement doc ps active).matched q = true ↔
        q ∈ sub.map (·.quote) := by
      intro q
      rw [heq, mapHas_iff, List.map_map]
      exact Iff.rfl
    have hpermSub : List.Perm sub (ps.filter fun p =>
        mapHas (runPlacement doc ps active).matched p.quote) := by
      rw [List.perm_ext_iff_of_nodup hsubnd (hndps.filter _)]
      intro x
      constructor
      · intro hx
        refine List.mem_filter.mpr ⟨(sortedPassages_perm ps).subset (hsub.subset hx), ?_⟩
        exact (hkey x.quote).mpr (List.mem_map.mpr ⟨x, hx, rfl⟩)
      · intro hx
        obtain ⟨hxps, hxP⟩ := List.mem_filter.mp hx
        have hxq := (hkey x.quote).mp hxP
        obtain ⟨y, hy, hyq⟩ := List.mem_map.mp hxq
        have hyps : y ∈ ps := (sortedPassages_perm ps).subset (hsub.subset hy)
        have hxy : y = x := List.inj_on_of_nodup_map hnd hyps hxps hyq
        rwa [hxy] at hy
    have hfilterneg : (ps.filter fun p =>
        ¬ mapHas (runPlacement doc ps active).matched p.quote) =
        ps.filter fun p => !(mapHas (runPlacement doc ps active).matched p.quote) := by
      apply List.filter_congr
      intro p _
      cases hmp : mapHas (runPlacement doc ps active).matched p.quote <;> simp [hmp]
    have hperm : List.Perm ((buildAnnotations doc ps active).annotationData.map
        fun a => (a.quote, a.feedback, a.guideline))
        (ps.map fun p => (p.quote, p.feedback, p.guideline)) := by
      rw [buildAnnotations_split doc ps active h, List.map_append]
      rw [unmatchedAnnotationsData_triples ps (runPlacement doc ps active)]
      have hstep1 : List.Perm
          ((List.insertionSort annRecLE
            (matchedAnnotationsData (runPlacement doc ps active))).map
              fun a => (a.quote, a.feedback, a.guideline))
          (sub.map fun p => (p.quote, p.feedback, p.guideline)) := by
        rw [← matchedAnnotationsData_triples heq]
        exact (List.perm_insertionSort annRecLE _).map _
      rw [hfilterneg]
      refine ((hstep1.trans (hpermSub.map _)).append_right _).trans ?_
      rw [← List.map_append]
      exact (List.filter_append_perm _ ps).map _
    exact ⟨hperm, by
      have hlen := hperm.length_eq
      rw [List.length_map, List.length_map] at hlen
      exact hlen⟩

/-- Witness for `placement_record_per_item`: a nonempty document and two
items with distinct quotes (one matchable, one not) yield output triples
that are a permutation of the input triples, and output length 2. -/
theorem placement_record_per_item_witness :
    (("the elephant walks").toList ≠ ([] : List Char)) ∧
    ((([⟨("zebra elephant").toList, ("c0").toList, none⟩,
        ⟨("qqqqq wwwww").toList, ("c1").toList, none⟩] : List Passage).map
          (·.quote)).Nodup) ∧
    (List.Perm ((buildAnnotations (("the elephant walks").toList)
        [⟨("zebra elephant").toList, ("c0").toList, none⟩,
         ⟨("qqqqq wwwww").toList, ("c1").toList, none⟩] none).annotationData.map
          fun a => (a.quote, a.feedback, a.guideline))
      (([⟨("zebra elephant").toList, ("c0").toList, none⟩,
         ⟨("qqqqq wwwww").toList, ("c1").toList, none⟩] : List Passage).map
          fun p => (p.quote, p.feedback, p.guideline)) ∧
     (buildAnnotations (("the elephant walks").toList)
        [⟨("zebra elephant").toList, ("c0").toList, none⟩,
         ⟨("qqqqq wwwww").toList, ("c1").toList, none⟩] none).annotationData.length = 2) :=
  ⟨by decide, by decide,
    placement_record_per_item (("the elephant walks").toList)
      [⟨("zebra elephant").toList, ("c0").toList, none⟩,
       ⟨("qqqqq wwwww").toList, ("c1").toList, none⟩] none (by decide) (by decide)⟩

end AF

section scratch
set_option maxRecDepth 10000
open AF
example : normalizeText (("  He said “Hello…” ").toList) =
    (("he said \"hello...\"").toList) := by decide
example : normalizeText [] = [] := by decide
example : findBestSubstringMatch (("fox").toList) (("the fox").toList) = none := by decide
example :
    (findBestSubstringMatch (("zebra elephant").toList)
      (("the elephant walks").toList)).map (fun r => (r.startIndex, r.endIndex, r.similarity)) =
    some (0, 18, mkRat 7 10) := by decide
example :
    findBestSubstringMatch (("quick brown fox jumps over the lazy dog").toList)
      (("The quick brown fox jumps over the lazy dog near the riverbank.").toList) =
    none := by decide
example : findBestSubstringMatch (("(abcdef) zz").toList)
    (("here is (abcdef) indeed ok").toList) = none := by decide
example :
    (findBestSubstringMatch (List.replicate 60 'b')
      (List.replicate 20 '…' ++ List.replicate 30 'b')).map
        (fun r => (r.startIndex, r.endIndex)) = some (60, 50) := by decide
example :
    (buildAnnotations (("the elephant walks").toList)
      [⟨("zebra elephant").toList, ("c0").toList, none⟩,
       ⟨("qqqqq wwwww").toList, ("c1").toList, none⟩] none).annotationData.map
        (fun a => (a.quote, a.id, a.startIndex)) =
    [((("zebra elephant").toList), (("annotation-0").toList), some 0),
     ((("qqqqq wwwww").toList), (("unmatched-0").toList), none)] := by decide
example :
    (buildAnnotations (("xxxx").toList)
      [⟨("zebra elephant").toList, ("c0").toList, none⟩,
       ⟨("qqqqq wwwww").toList, ("c1").toList, none⟩] none).annotationData.map
        (fun a => (a.quote, a.id)) =
    [((("zebra elephant").toList), (("unmatched-0").toList)),
     ((("qqqqq wwwww").toList), (("unmatched-1").toList))] := by decide
example :
    ((buildAnnotations (("the elephant walks").toList)
      [⟨("zebra elephant").toList, ("c0").toList, none⟩,
       ⟨("zebra elephant").toList, ("c1").toList, none⟩] none).annotationData).length
    = 1 := by decide
end scratch
